import Mathlib

/-!
Verification development for the `dicee` engine core
(`packages/engine/src`): canonical dice configurations, scoring categories,
keep patterns, the multinomial transition model and the single-turn solver.

Dice configurations, keep patterns and rolled outcomes are all per-face
count vectors; we embed them as `List ℕ` of length 6 (index `i` holds the
count of face `i+1`, exactly like the Rust `[u8; 6]` arrays).

The Rust code computes probabilities and expected values in `f64`.  All
numbers that arise are dyadic-free exact rationals (multinomial weights
`m / 6^k` and their products/sums), so we embed `f64` values as exact
unnormalized fractions `PRat` (numerator/denominator pair of naturals,
positive denominator) together with the valuation `toQ : PRat → ℚ`.
Statements about numeric results are phrased through `toQ`; "within
floating tolerance" claims become exact rational equalities.
-/

-- =============================================================================
-- PRat: exact nonnegative rationals as unnormalized fractions (model of f64)
-- =============================================================================

/-- Model of the nonnegative `f64` values computed by the engine: an exact,
unnormalized fraction.  All probabilities and expected values in the source
are finite nonnegative rationals, so this embedding is exact. -/
structure PRat where
  num : ℕ
  den : ℕ
  den_pos : 0 < den

instance : DecidableEq PRat := fun a b =>
  decidable_of_iff (a.num = b.num ∧ a.den = b.den) (by
    cases a; cases b; simp)

/-- Embed a natural number (e.g. a `u8` score cast to `f64`). -/
def PRat.ofNat (n : ℕ) : PRat := ⟨n, 1, Nat.one_pos⟩

/-- Addition of fractions (exact model of `f64` addition on these values). -/
def PRat.add (a b : PRat) : PRat :=
  ⟨a.num * b.den + b.num * a.den, a.den * b.den, Nat.mul_pos a.den_pos b.den_pos⟩

/-- Multiplication of fractions. -/
def PRat.mul (a b : PRat) : PRat :=
  ⟨a.num * b.num, a.den * b.den, Nat.mul_pos a.den_pos b.den_pos⟩

/-- Value-level strict comparison (model of `f64 <`). -/
def PRat.lt (a b : PRat) : Prop := a.num * b.den < b.num * a.den

instance : DecidablePred fun p : PRat × PRat => PRat.lt p.1 p.2 := fun _ => by
  unfold PRat.lt; infer_instance

instance (a b : PRat) : Decidable (PRat.lt a b) := by
  unfold PRat.lt; infer_instance

/-- Model of `f64::max`. -/
def PRat.fmax (a b : PRat) : PRat := if PRat.lt a b then b else a

/-- Valuation of a fraction as a rational number. -/
def PRat.toQ (p : PRat) : ℚ := (p.num : ℚ) / (p.den : ℚ)

theorem PRat.den_pos_q (p : PRat) : (0 : ℚ) < (p.den : ℚ) := by
  exact_mod_cast p.den_pos

theorem PRat.den_ne_zero_q (p : PRat) : (p.den : ℚ) ≠ 0 :=
  ne_of_gt p.den_pos_q

theorem PRat.toQ_ofNat (n : ℕ) : (PRat.ofNat n).toQ = (n : ℚ) := by
  simp [PRat.toQ, PRat.ofNat]

theorem PRat.toQ_add (a b : PRat) : (a.add b).toQ = a.toQ + b.toQ := by
  unfold PRat.toQ PRat.add
  rw [div_add_div _ _ a.den_ne_zero_q b.den_ne_zero_q]
  push_cast
  ring_nf

theorem PRat.toQ_mul (a b : PRat) : (a.mul b).toQ = a.toQ * b.toQ := by
  unfold PRat.toQ PRat.mul
  push_cast
  rw [div_mul_div_comm]

theorem PRat.lt_iff_toQ (a b : PRat) : a.lt b ↔ a.toQ < b.toQ := by
  unfold PRat.lt PRat.toQ
  rw [div_lt_div_iff a.den_pos_q b.den_pos_q]
  exact_mod_cast Iff.rfl

theorem PRat.toQ_fmax (a b : PRat) : (a.fmax b).toQ = max a.toQ b.toQ := by
  unfold PRat.fmax
  by_cases h : a.lt b
  · rw [if_pos h, max_eq_right (le_of_lt ((PRat.lt_iff_toQ a b).mp h))]
  · rw [if_neg h, max_eq_left (le_of_not_lt (fun hc => h ((PRat.lt_iff_toQ a b).mpr hc)))]

theorem PRat.toQ_nonneg (p : PRat) : 0 ≤ p.toQ := by
  unfold PRat.toQ
  positivity

/-- Cross-multiplication characterisation of the value of a fraction; lets
concrete values be established by pure natural-number computation. -/
theorem PRat.toQ_eq_div (p : PRat) (a b : ℕ) (hb : 0 < b) (h : p.num * b = a * p.den) :
    p.toQ = (a : ℚ) / (b : ℚ) := by
  unfold PRat.toQ
  rw [div_eq_div_iff p.den_ne_zero_q (ne_of_gt (by exact_mod_cast hb))]
  exact_mod_cast h

-- =============================================================================
-- Categories (core/category.rs)
-- =============================================================================

/-- The 13 scoring categories, in their fixed order (discriminants 0–12). -/
inductive Category where
  | Ones
  | Twos
  | Threes
  | Fours
  | Fives
  | Sixes
  | ThreeOfAKind
  | FourOfAKind
  | FullHouse
  | SmallStraight
  | LargeStraight
  | Dicee
  | Chance
deriving DecidableEq, Repr

/-- All categories in order (`Category::ALL`). -/
def categoryALL : List Category :=
  [Category.Ones, Category.Twos, Category.Threes, Category.Fours,
   Category.Fives, Category.Sixes, Category.ThreeOfAKind, Category.FourOfAKind,
   Category.FullHouse, Category.SmallStraight, Category.LargeStraight,
   Category.Dicee, Category.Chance]

/-- The discriminant of a category (`self as usize` / `Category::index`). -/
def catIndex : Category → ℕ
  | Category.Ones => 0
  | Category.Twos => 1
  | Category.Threes => 2
  | Category.Fours => 3
  | Category.Fives => 4
  | Category.Sixes => 5
  | Category.ThreeOfAKind => 6
  | Category.FourOfAKind => 7
  | Category.FullHouse => 8
  | Category.SmallStraight => 9
  | Category.LargeStraight => 10
  | Category.Dicee => 11
  | Category.Chance => 12

/-- `Category::from_index`: `Some (ALL[index])` for `index < 13`, else `None`. -/
def catFromIndex (i : ℕ) : Option Category :=
  if i < 13 then some (categoryALL.getD i Category.Chance) else none

/-- `Category::mask`: the bit mask `1 << (self as u8)`. -/
def catMask (c : Category) : ℕ := 2 ^ catIndex c

-- =============================================================================
-- Dice configurations (core/config.rs); counts are `List ℕ` of length 6
-- =============================================================================

/-- The invariant of a canonical dice configuration: six per-face counts
summing to 5. -/
def IsConfig (c : List ℕ) : Prop := c.length = 6 ∧ c.sum = 5

instance (c : List ℕ) : Decidable (IsConfig c) := by
  unfold IsConfig; infer_instance

/-- `DiceConfig::count(face)`: count of dice showing `face` (1–6). -/
def countFace (c : List ℕ) (face : ℕ) : ℕ := c.getD (face - 1) 0

/-- `DiceConfig::sum`: the sum of all dice values,
`c₀ + 2c₁ + 3c₂ + 4c₃ + 5c₄ + 6c₅`. -/
def diceSum (c : List ℕ) : ℕ :=
  c.getD 0 0 + 2 * c.getD 1 0 + 3 * c.getD 2 0 + 4 * c.getD 3 0 +
    5 * c.getD 4 0 + 6 * c.getD 5 0

/-- `DiceConfig::max_count`: the maximum per-face count
(`iter().max().unwrap_or(&0)`). -/
def maxCount (c : List ℕ) : ℕ := (c.max?).getD 0

/-- `DiceConfig::is_full_house`: some face has count 3 and some face has
count 2 (the Rust loop sets the two flags with an `if`/`else if`, which is
equivalent because no count is both 3 and 2). -/
def isFullHouse (c : List ℕ) : Bool := (c.any (· = 3)) && (c.any (· = 2))

/-- `DiceConfig::is_yahtzee` (called `is_dicee` at its use sites in
`scoring/rules.rs`): all five dice show the same face. -/
def isDicee (c : List ℕ) : Bool := maxCount c = 5

/-- All 252 canonical configurations in lexicographic order of the counts
array (`generate_all_configs`: five nested loops with the last count forced
to make the total 5). -/
def allConfigs : List (List ℕ) :=
  (List.range 6).flatMap fun c0 =>
    (List.range (6 - c0)).flatMap fun c1 =>
      (List.range (6 - c0 - c1)).flatMap fun c2 =>
        (List.range (6 - c0 - c1 - c2)).flatMap fun c3 =>
          (List.range (6 - c0 - c1 - c2 - c3)).map fun c4 =>
            [c0, c1, c2, c3, c4, 5 - c0 - c1 - c2 - c3 - c4]

/-- `DiceConfig::to_index`: linear scan of the canonical enumeration for the
first configuration equal to `c`. -/
def toIndex (c : List ℕ) : ℕ := allConfigs.findIdx (· == c)

/-- `DiceConfig::from_index`: index into the precomputed `ALL_CONFIGS` array. -/
def fromIndex (i : ℕ) : List ℕ := allConfigs.getD i []

-- =============================================================================
-- Scoring (scoring/rules.rs, solver API)
-- =============================================================================

/-- `ScoreResult`: a score together with category validity. -/
structure ScoreResult where
  score : ℕ
  valid : Bool
deriving DecidableEq, Repr

/-- `score_upper_u8`: upper-section score `face * count`, always valid. -/
def scoreUpper (c : List ℕ) (face : ℕ) : ScoreResult :=
  let count := countFace c face
  if count > 0 then ⟨face * count, true⟩ else ⟨0, true⟩

/-- `score_n_of_kind_u8`: the dice sum when at least `n` dice match. -/
def scoreNOfKind (c : List ℕ) (n : ℕ) : ScoreResult :=
  if maxCount c ≥ n then ⟨diceSum c, true⟩ else ⟨0, false⟩

/-- `has_small_straight`: four consecutive faces all present. -/
def hasSmallStraight (c : List ℕ) : Bool :=
  let has := fun face => countFace c face > 0
  (has 1 && has 2 && has 3 && has 4) || (has 2 && has 3 && has 4 && has 5) ||
    (has 3 && has 4 && has 5 && has 6)

/-- `has_large_straight`: five consecutive faces all present. -/
def hasLargeStraight (c : List ℕ) : Bool :=
  let has := fun face => countFace c face > 0
  (has 1 && has 2 && has 3 && has 4 && has 5) ||
    (has 2 && has 3 && has 4 && has 5 && has 6)

/-- `scoring::rules::score`: score of a configuration in a category. -/
def score (c : List ℕ) (category : Category) : ScoreResult :=
  match category with
  | Category.Ones => scoreUpper c 1
  | Category.Twos => scoreUpper c 2
  | Category.Threes => scoreUpper c 3
  | Category.Fours => scoreUpper c 4
  | Category.Fives => scoreUpper c 5
  | Category.Sixes => scoreUpper c 6
  | Category.ThreeOfAKind => scoreNOfKind c 3
  | Category.FourOfAKind => scoreNOfKind c 4
  | Category.FullHouse => if isFullHouse c then ⟨25, true⟩ else ⟨0, false⟩
  | Category.SmallStraight => if hasSmallStraight c then ⟨30, true⟩ else ⟨0, false⟩
  | Category.LargeStraight => if hasLargeStraight c then ⟨40, true⟩ else ⟨0, false⟩
  | Category.Dicee => if isDicee c then ⟨50, true⟩ else ⟨0, false⟩
  | Category.Chance => ⟨diceSum c, true⟩

-- =============================================================================
-- Decided facts about the configuration enumeration
-- =============================================================================

set_option maxRecDepth 100000

theorem allConfigs_length : allConfigs.length = 252 := by decide

theorem allConfigs_all_isConfig : ∀ c ∈ allConfigs, IsConfig c := by decide

/-- Base-6 encoding of a count vector (counts are at most 5), used to check
distinctness of the enumeration cheaply. -/
def encodeConfig (c : List ℕ) : ℕ := c.foldl (fun a d => a * 6 + d) 0

/-- Boolean strict-ascending check, used so the distinctness of the
enumeration can be decided cheaply. -/
def chainLtB : List ℕ → Bool
  | [] => true
  | [_] => true
  | a :: b :: t => (a < b : Bool) && chainLtB (b :: t)

theorem chainLtB_chain' : ∀ l : List ℕ, chainLtB l = true → List.Chain' (· < ·) l := by
  intro l
  induction l with
  | nil => intro _; simp
  | cons a t ih =>
    match t with
    | [] => intro _; simp
    | b :: t' =>
      intro h
      simp only [chainLtB, Bool.and_eq_true, decide_eq_true_eq] at h
      exact List.Chain'.cons h.1 (ih h.2)

theorem allConfigs_chain : chainLtB (allConfigs.map encodeConfig) = true := by decide

theorem allConfigs_nodup : allConfigs.Nodup := by
  have hp : (allConfigs.map encodeConfig).Pairwise (· < ·) :=
    List.chain'_iff_pairwise.mp (chainLtB_chain' _ allConfigs_chain)
  have hn : (allConfigs.map encodeConfig).Nodup := hp.imp ne_of_lt
  exact hn.of_map _

/-- In a duplicate-free list, the linear scan for the element at position `i`
returns `i`. -/
theorem findIdx_beq_getElem {α : Type} [BEq α] [LawfulBEq α] :
    ∀ (l : List α), l.Nodup → ∀ i, (h : i < l.length) →
      l.findIdx (· == l[i]) = i := by
  intro l
  induction l with
  | nil => intro _ i h; simp at h
  | cons x t ih =>
    intro hnd i h
    match i with
    | 0 => simp [List.findIdx_cons]
    | j + 1 =>
      have hxt : x ∉ t := (List.nodup_cons.mp hnd).1
      have hjt : j < t.length := by simpa using h
      have hx : (x == t[j]) = false := by
        simp only [beq_eq_false_iff_ne]
        intro hxe
        exact hxt (hxe ▸ List.getElem_mem hjt)
      simp only [List.getElem_cons_succ, List.findIdx_cons, hx, cond_false]
      rw [ih (List.nodup_cons.mp hnd).2 j hjt]

/-- Round-trip helper: indexing then looking up is the identity on `[0,252)`. -/
theorem index_roundtrip_left : ∀ i, i < 252 → toIndex (fromIndex i) = i := by
  intro i hi
  have hlen : i < allConfigs.length := by rw [allConfigs_length]; exact hi
  unfold toIndex fromIndex
  rw [List.getD_eq_getElem _ _ hlen]
  exact findIdx_beq_getElem allConfigs allConfigs_nodup i hlen

/-- Round-trip helper: looking up then indexing is the identity on the
canonical configurations. -/
theorem index_roundtrip_right : ∀ c ∈ allConfigs, fromIndex (toIndex c) = c := by
  intro c hc
  obtain ⟨i, hi, hgi⟩ := List.mem_iff_getElem.mp hc
  have ht : toIndex c = i := by
    unfold toIndex
    rw [← hgi]
    exact findIdx_beq_getElem allConfigs allConfigs_nodup i hi
  rw [ht]
  unfold fromIndex
  rw [List.getD_eq_getElem _ _ hi]
  exact hgi

/-- Indices produced by `toIndex` on canonical configurations are in range. -/
theorem toIndex_lt (c : List ℕ) (hc : c ∈ allConfigs) : toIndex c < 252 := by
  obtain ⟨i, hi, hgi⟩ := List.mem_iff_getElem.mp hc
  have ht : toIndex c = i := by
    unfold toIndex
    rw [← hgi]
    exact findIdx_beq_getElem allConfigs allConfigs_nodup i hi
  rw [ht, ← allConfigs_length]
  exact hi

/-- Every list of length 6 is a sixtuple. -/
theorem exists_six_of_length (l : List ℕ) (h : l.length = 6) :
    ∃ a b c d e f, l = [a, b, c, d, e, f] := by
  match l, h with
  | [a, b, c, d, e, f], _ => exact ⟨a, b, c, d, e, f, rfl⟩

/-- Membership in the canonical enumeration is exactly the configuration
invariant (six counts summing to 5). -/
theorem mem_allConfigs_iff (c : List ℕ) : c ∈ allConfigs ↔ IsConfig c := by
  constructor
  · exact allConfigs_all_isConfig c
  · rintro ⟨hlen, hsum⟩
    obtain ⟨a, b, c2, d, e, f, rfl⟩ := exists_six_of_length c hlen
    simp only [List.sum_cons, List.sum_nil, add_zero] at hsum
    simp only [allConfigs, List.mem_flatMap, List.mem_range, List.mem_map]
    refine ⟨a, by omega, b, by omega, c2, by omega, d, by omega, e, by omega, ?_⟩
    have : 5 - a - b - c2 - d - e = f := by omega
    rw [this]

theorem fromIndex_mem (i : ℕ) (hi : i < 252) : fromIndex i ∈ allConfigs := by
  have hlen : i < allConfigs.length := by rw [allConfigs_length]; exact hi
  unfold fromIndex
  rw [List.getD_eq_getElem _ _ hlen]
  exact List.getElem_mem hlen

-- =============================================================================
-- Score bounds
-- =============================================================================

/-- Every category score of a canonical configuration is at most 50
(the fixed five-of-a-kind score; dice sums are at most 30). -/
theorem score_le_50 (c : List ℕ) (hc : IsConfig c) (cat : Category) :
    (score c cat).score ≤ 50 := by
  obtain ⟨hlen, hsum⟩ := hc
  obtain ⟨a, b, c2, d, e, f, rfl⟩ := exists_six_of_length c hlen
  simp only [List.sum_cons, List.sum_nil, add_zero] at hsum
  have h1 : countFace [a, b, c2, d, e, f] 1 = a := rfl
  have h2 : countFace [a, b, c2, d, e, f] 2 = b := rfl
  have h3 : countFace [a, b, c2, d, e, f] 3 = c2 := rfl
  have h4 : countFace [a, b, c2, d, e, f] 4 = d := rfl
  have h5 : countFace [a, b, c2, d, e, f] 5 = e := rfl
  have h6 : countFace [a, b, c2, d, e, f] 6 = f := rfl
  have hds : diceSum [a, b, c2, d, e, f] = a + 2 * b + 3 * c2 + 4 * d + 5 * e + 6 * f := rfl
  cases cat <;>
    simp only [score, scoreUpper, scoreNOfKind, h1, h2, h3, h4, h5, h6, hds] <;>
    first
      | omega
      | (split_ifs <;> simp only [] <;> omega)

-- =============================================================================
-- Category sets (core/category.rs, `CategorySet`)
-- =============================================================================

/-- The mask of all 13 category bits (`CategorySet::ALL_MASK = (1 << 13) - 1`). -/
def ALL_MASK : ℕ := 8191

/-- `CategorySet::from_bits`: keep only the lower 13 bits of a `u16`. -/
def fromBits (bits : ℕ) : ℕ := bits &&& ALL_MASK

/-- `CategorySet::with` (and the in-place `insert`): set the category bit. -/
def withCat (s : ℕ) (c : Category) : ℕ := s ||| catMask c

/-- `CategorySet::without` (and the in-place `remove`):
`bits & !mask` where `!` is `u16` complement. -/
def withoutCat (s : ℕ) (c : Category) : ℕ := s &&& (65535 ^^^ catMask c)

/-- `CategorySet::union`. -/
def unionSet (s t : ℕ) : ℕ := s ||| t

/-- `CategorySet::intersection`. -/
def interSet (s t : ℕ) : ℕ := s &&& t

/-- `CategorySet::complement`: `(!bits) & ALL_MASK` on `u16`. -/
def complementSet (s : ℕ) : ℕ := (65535 ^^^ s) &&& ALL_MASK

/-- `CategorySet::contains`: the category bit is set. -/
def containsCat (s : ℕ) (c : Category) : Bool := s &&& catMask c ≠ 0

-- =============================================================================
-- Category-set iteration (`CategorySetIter`)
-- =============================================================================

/-- Fuelled trailing-zeros count; with fuel 16 this is `u16::trailing_zeros`
for all inputs below `2^16` (and gives 16 on 0, as in Rust). -/
def ctzAux : ℕ → ℕ → ℕ
  | 0, _ => 0
  | fuel + 1, n => if n % 2 = 1 then 0 else ctzAux fuel (n / 2) + 1

/-- `u16::trailing_zeros`. -/
def ctz (n : ℕ) : ℕ := ctzAux 16 n

/-- One pass of `CategorySetIter::next` repeated until the bits are exhausted:
emit the category of the lowest set bit, clear it with `bits &= bits - 1`,
continue; stop on zero bits or on an out-of-range index (where
`Category::from_index` returns `None` and the Rust iterator ends).  The fuel
(16) dominates the number of set bits of any `u16`. -/
def iterAux : ℕ → ℕ → List Category
  | 0, _ => []
  | fuel + 1, bits =>
    if bits = 0 then []
    else
      match catFromIndex (ctz bits) with
      | none => []
      | some c => c :: iterAux fuel (bits &&& (bits - 1))

/-- The list of categories yielded by iterating a `CategorySet`. -/
def catSetIterList (s : ℕ) : List Category := iterAux 16 s

theorem catIndex_getD : ∀ i, i < 13 → catIndex (categoryALL.getD i Category.Chance) = i := by
  decide

theorem catMask_lt (c : Category) : catMask c < 8192 := by
  cases c <;> decide

/-- The trailing-zeros position is a set bit of any nonzero input in range. -/
theorem testBit_ctzAux : ∀ fuel n, n ≠ 0 → n < 2 ^ fuel →
    Nat.testBit n (ctzAux fuel n) = true := by
  intro fuel
  induction fuel with
  | zero => intro n hn hlt; omega
  | succ fuel ih =>
    intro n hn hlt
    by_cases hodd : n % 2 = 1
    · simp [ctzAux, hodd, Nat.testBit_zero]
    · have hhalf : n / 2 ≠ 0 := by omega
      have hlt2 : n / 2 < 2 ^ fuel := by
        have : (2 : ℕ) ^ (fuel + 1) = 2 ^ fuel * 2 := by ring
        omega
      simp only [ctzAux, hodd, if_false, Nat.testBit_add_one]
      exact ih (n / 2) hhalf hlt2

/-- Clearing the lowest set bit only clears bits. -/
theorem testBit_clear_lowbit (n j : ℕ) :
    Nat.testBit (n &&& (n - 1)) j = true → Nat.testBit n j = true := by
  rw [Nat.testBit_and]
  exact fun h => (Bool.and_eq_true _ _ ▸ h).1

/-- Soundness of category-set iteration: every yielded category's bit is set
in the bits being iterated. -/
theorem iterAux_sound : ∀ fuel s, s < 65536 → ∀ c ∈ iterAux fuel s,
    Nat.testBit s (catIndex c) = true := by
  intro fuel
  induction fuel with
  | zero => intro s _ c hc; simp [iterAux] at hc
  | succ fuel ih =>
    intro s hs c hc
    by_cases hz : s = 0
    · simp [iterAux, hz] at hc
    · simp only [iterAux, hz, if_false] at hc
      by_cases hidx : ctz s < 13
      · rw [catFromIndex, if_pos hidx] at hc
        simp only [List.mem_cons] at hc
        rcases hc with rfl | hc
        · rw [catIndex_getD (ctz s) hidx]
          exact testBit_ctzAux 16 s hz hs
        · have hsub : s &&& (s - 1) < 65536 :=
            lt_of_le_of_lt Nat.and_le_left hs
          exact testBit_clear_lowbit s (catIndex c)
            (ih (s &&& (s - 1)) hsub c hc)
      · rw [catFromIndex, if_neg hidx] at hc
        simp at hc

/-- For a set respecting the 13-bit invariant, the lowest set bit is a valid
category index, so iteration starts by yielding a genuine category. -/
theorem ctz_lt_13 (s : ℕ) (hz : s ≠ 0) (hs : s < 8192) : ctz s < 13 := by
  have hbit : Nat.testBit s (ctz s) = true :=
    testBit_ctzAux 16 s hz (by omega)
  have hge : 2 ^ ctz s ≤ s := Nat.testBit_implies_ge hbit
  by_contra hlt
  have : (2 : ℕ) ^ 13 ≤ 2 ^ ctz s := Nat.pow_le_pow_right (by omega) (by omega)
  omega

/-- Iteration of a nonzero 13-bit set yields at least one category. -/
theorem catSetIterList_ne_nil (s : ℕ) (hz : s ≠ 0) (hs : s < 8192) :
    catSetIterList s ≠ [] := by
  unfold catSetIterList iterAux
  rw [if_neg hz, catFromIndex, if_pos (ctz_lt_13 s hz hs)]
  simp

-- =============================================================================
-- Keep patterns (core/keep.rs): mixed-radix enumeration of valid patterns
-- =============================================================================

/-- `KeepPattern::keep_all`: keep exactly the configuration's counts. -/
def keepAll (c : List ℕ) : List ℕ := c

/-- `KeepPattern::count_valid_for`: the product of `count + 1` per face. -/
def countValidFor (c : List ℕ) : ℕ := (c.map (· + 1)).prod

/-- One increment of `KeepPatternIterator::next`'s carry loop: bump the first
digit that is below its bound, zeroing the digits passed over; the Bool is
the final carry (true exactly on overflow past the last digit). -/
def incCounter : List ℕ → List ℕ → List ℕ × Bool
  | d :: ds, m :: ms =>
    if d < m then ((d + 1) :: ds, false)
    else
      let r := incCounter ds ms
      (0 :: r.1, r.2)
  | _, _ => ([], true)

/-- The run of the keep-pattern iterator: emit the current digits, increment,
stop when the increment overflows (`done` in the Rust iterator).  The fuel is
an upper bound on the number of emissions; `iterValidFor` supplies the exact
count, so behaviour matches the Rust iterator step for step. -/
def runCounter (maxc : List ℕ) : ℕ → List ℕ → List (List ℕ)
  | 0, _ => []
  | fuel + 1, cur =>
    let r := incCounter cur maxc
    cur :: (if r.2 then [] else runCounter maxc fuel r.1)

/-- `KeepPattern::iter_valid_for`: all keep patterns with per-face kept count
between 0 and the configuration's count, in mixed-radix order starting from
all zeros. -/
def iterValidFor (c : List ℕ) : List (List ℕ) :=
  runCounter c (countValidFor c) (c.map fun _ => 0)

/-- Mixed-radix rank of a digit vector (least-significant digit first). -/
def rankC : List ℕ → List ℕ → ℕ
  | d :: ds, m :: ms => d + (m + 1) * rankC ds ms
  | _, _ => 0

theorem countValidFor_pos (c : List ℕ) : 0 < countValidFor c := by
  unfold countValidFor
  induction c with
  | nil => simp
  | cons a t ih => simpa using Nat.mul_pos (Nat.succ_pos a) ih

theorem rankC_lt : ∀ {cur maxc : List ℕ}, List.Forall₂ (· ≤ ·) cur maxc →
    rankC cur maxc < countValidFor maxc := by
  intro cur maxc h
  induction h with
  | nil => simp [rankC, countValidFor]
  | @cons d m ds ms hdm _ ih =>
    show d + (m + 1) * rankC ds ms < countValidFor (m :: ms)
    have h1 : d + (m + 1) * rankC ds ms < (m + 1) * (rankC ds ms + 1) := by
      rw [Nat.mul_succ]; omega
    have h2 : (m + 1) * (rankC ds ms + 1) ≤ (m + 1) * countValidFor ms :=
      Nat.mul_le_mul_left _ ih
    have h3 : countValidFor (m :: ms) = (m + 1) * countValidFor ms := by
      simp [countValidFor]
    omega

theorem rankC_self : ∀ maxc : List ℕ, rankC maxc maxc = countValidFor maxc - 1 := by
  intro maxc
  induction maxc with
  | nil => simp [rankC, countValidFor]
  | cons m ms ih =>
    show m + (m + 1) * rankC ms ms = countValidFor (m :: ms) - 1
    have h3 : countValidFor (m :: ms) = (m + 1) * countValidFor ms := by
      simp [countValidFor]
    have hp := countValidFor_pos ms
    rw [ih, h3, Nat.mul_sub, Nat.mul_one]
    have : (m + 1) ≤ (m + 1) * countValidFor ms := Nat.le_mul_of_pos_right _ hp
    omega

theorem incCounter_carry : ∀ {cur maxc : List ℕ}, List.Forall₂ (· ≤ ·) cur maxc →
    ((incCounter cur maxc).2 = true ↔ cur = maxc) := by
  intro cur maxc h
  induction h with
  | nil => simp [incCounter]
  | @cons d m ds ms hdm _ ih =>
    by_cases hlt : d < m
    · simp only [incCounter, if_pos hlt]
      constructor
      · intro hfalse; exact absurd hfalse (by simp)
      · intro he
        injection he with h1 _
        omega
    · have hde : d = m := by omega
      simp only [incCounter, if_neg hlt]
      subst hde
      simp only [List.cons.injEq, true_and]
      exact ih

theorem incCounter_step : ∀ {cur maxc : List ℕ}, List.Forall₂ (· ≤ ·) cur maxc →
    cur ≠ maxc →
    List.Forall₂ (· ≤ ·) (incCounter cur maxc).1 maxc ∧
      rankC (incCounter cur maxc).1 maxc = rankC cur maxc + 1 := by
  intro cur maxc h
  induction h with
  | nil => intro hne; exact absurd rfl hne
  | @cons d m ds ms hdm hforall ih =>
    intro hne
    by_cases hlt : d < m
    · simp only [incCounter, if_pos hlt]
      refine ⟨List.Forall₂.cons (by omega) hforall, ?_⟩
      show d + 1 + (m + 1) * rankC ds ms = d + (m + 1) * rankC ds ms + 1
      omega
    · have hde : d = m := by omega
      subst hde
      have hne' : ds ≠ ms := by
        intro he; exact hne (by rw [he])
      obtain ⟨hf, hr⟩ := ih hne'
      simp only [incCounter, if_neg hlt]
      refine ⟨List.Forall₂.cons (Nat.zero_le _) hf, ?_⟩
      show 0 + (d + 1) * rankC (incCounter ds ms).1 ms = d + (d + 1) * rankC ds ms + 1
      rw [hr, Nat.mul_succ]
      omega

theorem rankC_inj : ∀ {v w maxc : List ℕ}, List.Forall₂ (· ≤ ·) v maxc →
    List.Forall₂ (· ≤ ·) w maxc → rankC v maxc = rankC w maxc → v = w := by
  intro v w maxc hv
  induction hv generalizing w with
  | nil =>
    intro hw _
    cases hw
    rfl
  | @cons d m ds ms hdm _ ih =>
    intro hw hrank
    cases hw with
    | cons hd' hw' =>
      rename_i d' ds'
      have hrr : d + (m + 1) * rankC ds ms = d' + (m + 1) * rankC ds' ms := hrank
      have hmod : d = d' := by
        have h1 : (d + (m + 1) * rankC ds ms) % (m + 1) = d :=
          by rw [Nat.add_mul_mod_self_left]; exact Nat.mod_eq_of_lt (by omega)
        have h2 : (d' + (m + 1) * rankC ds' ms) % (m + 1) = d' :=
          by rw [Nat.add_mul_mod_self_left]; exact Nat.mod_eq_of_lt (by omega)
        rw [← h1, ← h2, hrr]
      subst hmod
      have hmul : (m + 1) * rankC ds ms = (m + 1) * rankC ds' ms := by omega
      have hrank' : rankC ds ms = rankC ds' ms :=
        Nat.eq_of_mul_eq_mul_left (by omega) hmul
      rw [ih hw' hrank']

theorem runCounter_mem : ∀ (maxc : List ℕ) (fuel : ℕ) (cur : List ℕ),
    List.Forall₂ (· ≤ ·) cur maxc →
    ∀ v ∈ runCounter maxc fuel cur,
      List.Forall₂ (· ≤ ·) v maxc ∧ rankC cur maxc ≤ rankC v maxc := by
  intro maxc fuel
  induction fuel with
  | zero => intro cur _ v hv; simp [runCounter] at hv
  | succ fuel ih =>
    intro cur hcur v hv
    simp only [runCounter, List.mem_cons] at hv
    rcases hv with rfl | hv
    · exact ⟨hcur, le_refl _⟩
    · by_cases hcarry : (incCounter cur maxc).2 = true
      · rw [if_pos hcarry] at hv; simp at hv
      · rw [if_neg hcarry] at hv
        have hne : cur ≠ maxc := fun he => hcarry ((incCounter_carry hcur).mpr he)
        obtain ⟨hf, hr⟩ := incCounter_step hcur hne
        obtain ⟨h1, h2⟩ := ih _ hf v hv
        exact ⟨h1, by omega⟩

theorem runCounter_nodup : ∀ (maxc : List ℕ) (fuel : ℕ) (cur : List ℕ),
    List.Forall₂ (· ≤ ·) cur maxc → (runCounter maxc fuel cur).Nodup := by
  intro maxc fuel
  induction fuel with
  | zero => intro cur _; simp [runCounter]
  | succ fuel ih =>
    intro cur hcur
    simp only [runCounter]
    by_cases hcarry : (incCounter cur maxc).2 = true
    · rw [if_pos hcarry]; simp
    · rw [if_neg hcarry]
      have hne : cur ≠ maxc := fun he => hcarry ((incCounter_carry hcur).mpr he)
      obtain ⟨hf, hr⟩ := incCounter_step hcur hne
      refine List.nodup_cons.mpr ⟨?_, ih _ hf⟩
      intro hmem
      obtain ⟨_, hrank⟩ := runCounter_mem maxc fuel _ hf cur hmem
      omega

theorem runCounter_length : ∀ (maxc : List ℕ) (fuel : ℕ) (cur : List ℕ),
    List.Forall₂ (· ≤ ·) cur maxc →
    fuel = countValidFor maxc - rankC cur maxc →
    (runCounter maxc fuel cur).length = fuel := by
  intro maxc fuel
  induction fuel with
  | zero =>
    intro cur hcur hfuel
    have := rankC_lt hcur
    omega
  | succ fuel ih =>
    intro cur hcur hfuel
    simp only [runCounter]
    by_cases hcarry : (incCounter cur maxc).2 = true
    · rw [if_pos hcarry]
      have he : cur = maxc := (incCounter_carry hcur).mp hcarry
      subst he
      have := rankC_self cur
      have := countValidFor_pos cur
      simp only [List.length_cons, List.length_nil]
      omega
    · rw [if_neg hcarry]
      have hne : cur ≠ maxc := fun he => hcarry ((incCounter_carry hcur).mpr he)
      obtain ⟨hf, hr⟩ := incCounter_step hcur hne
      have hlt := rankC_lt hcur
      have hmaxrank : rankC cur maxc ≠ countValidFor maxc - 1 := by
        intro he
        exact hne (rankC_inj hcur (List.forall₂_same.mpr fun x _ => le_refl x)
          (by rw [he, rankC_self]))
      rw [List.length_cons, ih _ hf (by omega)]

theorem runCounter_complete : ∀ (maxc : List ℕ) (fuel : ℕ) (cur v : List ℕ),
    List.Forall₂ (· ≤ ·) cur maxc → List.Forall₂ (· ≤ ·) v maxc →
    rankC cur maxc ≤ rankC v maxc →
    fuel = countValidFor maxc - rankC cur maxc →
    v ∈ runCounter maxc fuel cur := by
  intro maxc fuel
  induction fuel with
  | zero =>
    intro cur v hcur _ _ hfuel
    have := rankC_lt hcur
    omega
  | succ fuel ih =>
    intro cur v hcur hv hle hfuel
    simp only [runCounter]
    by_cases heq : rankC cur maxc = rankC v maxc
    · have : cur = v := rankC_inj hcur hv heq
      subst this
      exact List.mem_cons_self _ _
    · have hlt : rankC cur maxc < rankC v maxc := by omega
      have hne : cur ≠ maxc := by
        intro he
        subst he
        have := rankC_self cur
        have := rankC_lt hv
        omega
      have hcarry : (incCounter cur maxc).2 ≠ true :=
        fun hc => hne ((incCounter_carry hcur).mp hc)
      rw [if_neg hcarry]
      obtain ⟨hf, hr⟩ := incCounter_step hcur hne
      exact List.mem_cons_of_mem _ (ih _ v hf hv (by omega) (by omega))

theorem rankC_zeros : ∀ c : List ℕ, rankC (c.map fun _ => 0) c = 0 := by
  intro c
  induction c with
  | nil => simp [rankC]
  | cons m ms ih =>
    show 0 + (m + 1) * rankC (ms.map fun _ => 0) ms = 0
    rw [ih]
    omega

theorem zeros_le (c : List ℕ) : List.Forall₂ (· ≤ ·) (c.map fun _ => 0) c := by
  induction c with
  | nil => simp
  | cons m ms ih => exact List.Forall₂.cons (Nat.zero_le m) ih

/-- The keep-pattern iterator enumerates exactly the valid patterns:
membership is pointwise boundedness by the configuration's counts. -/
theorem iterValidFor_mem_iff (c p : List ℕ) :
    p ∈ iterValidFor c ↔ List.Forall₂ (· ≤ ·) p c := by
  constructor
  · intro hp
    exact (runCounter_mem c (countValidFor c) _ (zeros_le c) p hp).1
  · intro hp
    exact runCounter_complete c (countValidFor c) _ p (zeros_le c) hp
      (by rw [rankC_zeros]; exact Nat.zero_le _)
      (by rw [rankC_zeros]; omega)

theorem iterValidFor_nodup (c : List ℕ) : (iterValidFor c).Nodup :=
  runCounter_nodup c (countValidFor c) _ (zeros_le c)

theorem iterValidFor_length (c : List ℕ) :
    (iterValidFor c).length = countValidFor c :=
  runCounter_length c (countValidFor c) _ (zeros_le c) (by rw [rankC_zeros]; omega)

theorem iterValidFor_ne_nil (c : List ℕ) : iterValidFor c ≠ [] := by
  intro he
  have hlen := iterValidFor_length c
  rw [he] at hlen
  have hpos := countValidFor_pos c
  simp only [List.length_nil] at hlen
  omega

theorem sum_le_of_forall₂ : ∀ {p c : List ℕ}, List.Forall₂ (· ≤ ·) p c →
    p.sum ≤ c.sum := by
  intro p c h
  induction h with
  | nil => simp
  | cons hd _ ih => simpa using Nat.add_le_add hd ih

theorem length_eq_of_forall₂ : ∀ {p c : List ℕ}, List.Forall₂ (· ≤ ·) p c →
    p.length = c.length :=
  fun h => h.length_eq

-- =============================================================================
-- Probabilities (transition/probability.rs)
-- =============================================================================

/-- `multinomial_coefficient`: `n! / (k₁! × … × k₆!)` with `n` the sum of the
counts (integer division, exact by the factorial divisibility below). -/
def multinomialCoefficient (counts : List ℕ) : ℕ :=
  Nat.factorial counts.sum / (counts.map Nat.factorial).prod

/-- `POWERS_OF_SIX_INV[k]`, the exact value `(1/6)^k`. -/
def invPowSix (k : ℕ) : PRat := ⟨1, 6 ^ k, Nat.pos_pow_of_pos k (by omega)⟩

/-- `roll_outcome_probability`: multinomial coefficient times `(1/6)^k`, with
the `dice_rolled == 0` short-circuit of the source. -/
def rollOutcomeProbability (rolledCounts : List ℕ) (diceRolled : ℕ) : PRat :=
  if diceRolled = 0 then
    if rolledCounts.all (· = 0) then PRat.ofNat 1 else PRat.ofNat 0
  else
    (PRat.ofNat (multinomialCoefficient rolledCounts)).mul (invPowSix diceRolled)

/-- `f64::EPSILON = 2^{-52}` (used by `Probability::is_zero`). -/
def f64Epsilon : PRat := ⟨1, 2 ^ 52, Nat.pos_pow_of_pos 52 (by omega)⟩

/-- `Probability::is_zero`: strictly below `f64::EPSILON`. -/
def probIsZero (p : PRat) : Prop := p.lt f64Epsilon

instance (p : PRat) : Decidable (probIsZero p) := by
  unfold probIsZero; infer_instance

/-- `compute_transition_prob` (transition/table.rs): per-face feasibility,
the required roll `target - kept`, and the sum check; the per-face loop of
the source is written out over the six faces (`kept` and `target` are
`[u8; 6]` in Rust, so the catch-all arm is unreachable there). -/
def computeTransitionProb (kept target : List ℕ) (toRoll : ℕ) : Option PRat :=
  match kept, target with
  | [k0, k1, k2, k3, k4, k5], [t0, t1, t2, t3, t4, t5] =>
    if k0 ≤ t0 ∧ k1 ≤ t1 ∧ k2 ≤ t2 ∧ k3 ≤ t3 ∧ k4 ≤ t4 ∧ k5 ≤ t5 then
      let needed := [t0 - k0, t1 - k1, t2 - k2, t3 - k3, t4 - k4, t5 - k5]
      if needed.sum = toRoll then some (rollOutcomeProbability needed toRoll)
      else none
    else none
  | _, _ => none

-- =============================================================================
-- Transition table (transition/table.rs)
-- =============================================================================

/-- `TransitionTable::build`'s inner loop body for a fixed key: scan all 252
target configurations with their indices, keeping the nonzero transition
probabilities. -/
def entriesFor (kept : List ℕ) (toRoll : ℕ) : List (ℕ × PRat) :=
  allConfigs.enum.filterMap fun it =>
    match computeTransitionProb kept it.2 toRoll with
    | some prob => if probIsZero prob then none else some (it.1, prob)
    | none => none

/-- `for_each_keep_pattern`'s recursion (transition/table.rs): the first
argument counts the faces after the current one (so `5` at the top level for
faces 0–5); at the last face all remaining dice are kept if within the cap. -/
def forEachKeepAux (maxPerFace : ℕ) : ℕ → ℕ → List (List ℕ)
  | 0, remaining => if remaining ≤ maxPerFace then [[remaining]] else []
  | n + 1, remaining =>
    (List.range (min remaining maxPerFace + 1)).flatMap fun c =>
      (forEachKeepAux maxPerFace n (remaining - c)).map (c :: ·)

/-- `for_each_keep_pattern total_kept`: all kept-count vectors using exactly
`total_kept` dice (`max_per_face = 5`). -/
def keepPatternsWithTotal (totalKept : ℕ) : List (List ℕ) :=
  forEachKeepAux 5 5 totalKept

/-- The keys enumerated by `TransitionTable::build`: for each dice-to-roll
count 0–5, every keep pattern with `5 - to_roll` kept dice. -/
def transitionKeys : List (List ℕ × ℕ) :=
  (List.range 6).flatMap fun toRoll =>
    (keepPatternsWithTotal (5 - toRoll)).map fun kept => (kept, toRoll)

/-- `TransitionTable::build`: the association of each reachable key with its
nonempty entry list (`transitions.insert` is guarded by `!entries.is_empty()`). -/
def transitionTable : List ((List ℕ × ℕ) × List (ℕ × PRat)) :=
  transitionKeys.filterMap fun key =>
    if entriesFor key.1 key.2 = [] then none
    else some (key, entriesFor key.1 key.2)

/-- Association-list lookup, the model of `HashMap::get` on the table. -/
def lookupTT : List ((List ℕ × ℕ) × List (ℕ × PRat)) → (List ℕ × ℕ) →
    Option (List (ℕ × PRat))
  | [], _ => none
  | (k, v) :: t, key => if k = key then some v else lookupTT t key

/-- `TransitionTable::get` modelled extensionally: the table maps exactly the
built keys (kept counts of length 6 summing to `5 - to_roll`) to their entry
lists, and everything else to the empty slice; `transitionGet_eq_lookup`
below proves this agrees with association-list lookup in the built table. -/
def transitionGet (kept : List ℕ) (toRoll : ℕ) : List (ℕ × PRat) :=
  if kept.length = 6 ∧ kept.sum + toRoll = 5 then entriesFor kept toRoll else []

/-- `TransitionTable::expected_value`: fold the transition distribution of
the partial state `(kept, 5 - total_kept)` against a scorer,
`total += prob * value`. -/
def transitionExpectedValue (kept : List ℕ) (scorer : List ℕ → PRat) : PRat :=
  (transitionGet kept (5 - kept.sum)).foldl
    (fun total e => total.add (e.2.mul (scorer (fromIndex e.1)))) (PRat.ofNat 0)

-- =============================================================================
-- Factorial divisibility and the value of the multinomial coefficient
-- =============================================================================

theorem prod_factorial_dvd : ∀ c : List ℕ,
    (c.map Nat.factorial).prod ∣ Nat.factorial c.sum := by
  intro c
  induction c with
  | nil => simp
  | cons a t ih =>
    have h1 : Nat.factorial a * (t.map Nat.factorial).prod ∣
        Nat.factorial a * Nat.factorial t.sum :=
      Nat.mul_dvd_mul_left _ ih
    have h2 : Nat.factorial a * Nat.factorial t.sum ∣ Nat.factorial (a + t.sum) :=
      Nat.factorial_mul_factorial_dvd_factorial_add a t.sum
    simpa using dvd_trans h1 h2

theorem prod_factorial_pos (c : List ℕ) : 0 < (c.map Nat.factorial).prod := by
  induction c with
  | nil => simp
  | cons a t ih => simpa using Nat.mul_pos (Nat.factorial_pos a) ih

theorem multinomialCoefficient_pos (c : List ℕ) : 0 < multinomialCoefficient c := by
  unfold multinomialCoefficient
  exact Nat.div_pos (Nat.le_of_dvd (Nat.factorial_pos _) (prod_factorial_dvd c))
    (prod_factorial_pos c)

/-- The integer division computing the multinomial coefficient is exact. -/
theorem multinomialCoefficient_cast (c : List ℕ) :
    (multinomialCoefficient c : ℚ) =
      (Nat.factorial c.sum : ℚ) / ((c.map Nat.factorial).prod : ℚ) := by
  unfold multinomialCoefficient
  have hne : ((c.map Nat.factorial).prod : ℚ) ≠ 0 := by
    exact_mod_cast Nat.pos_iff_ne_zero.mp (prod_factorial_pos c)
  exact Nat.cast_div (prod_factorial_dvd c) hne

/-- Rational value of a roll-outcome probability whose counts sum to the
number of dice rolled. -/
theorem rollOutcomeProbability_toQ (counts : List ℕ) (k : ℕ) (hk : counts.sum = k) :
    (rollOutcomeProbability counts k).toQ =
      (multinomialCoefficient counts : ℚ) / (6 : ℚ) ^ k := by
  unfold rollOutcomeProbability
  by_cases hz : k = 0
  · subst hz
    have hall : counts.all (· = 0) = true := by
      rw [List.all_eq_true]
      intro x hx
      have := List.single_le_sum (fun y _ => Nat.zero_le y) x hx
      simp only [decide_eq_true_eq]
      omega
    rw [if_pos rfl, if_pos hall, PRat.toQ_ofNat]
    have hmul : multinomialCoefficient counts = 1 := by
      have hprod : (counts.map Nat.factorial).prod = 1 := by
        have : ∀ x ∈ counts.map Nat.factorial, x = 1 := by
          intro x hx
          rw [List.mem_map] at hx
          obtain ⟨a, ha, rfl⟩ := hx
          have := List.single_le_sum (fun y _ => Nat.zero_le y) a ha
          have ha0 : a = 0 := by omega
          rw [ha0]
          rfl
        exact List.prod_eq_one this
      unfold multinomialCoefficient
      rw [hprod, hk]
      rfl
    rw [hmul]
    norm_num
  · rw [if_neg hz, PRat.toQ_mul, PRat.toQ_ofNat]
    unfold invPowSix PRat.toQ
    push_cast
    ring

/-- A roll-outcome probability with matching counts is at least `1/6^k`. -/
theorem rollOutcomeProbability_ge (counts : List ℕ) (k : ℕ) (hk : counts.sum = k) :
    1 / (6 : ℚ) ^ k ≤ (rollOutcomeProbability counts k).toQ := by
  rw [rollOutcomeProbability_toQ counts k hk]
  have h1 : (1 : ℚ) ≤ (multinomialCoefficient counts : ℚ) := by
    exact_mod_cast multinomialCoefficient_pos counts
  gcongr

theorem rollOutcomeProbability_pos (counts : List ℕ) (k : ℕ) (hk : counts.sum = k) :
    0 < (rollOutcomeProbability counts k).toQ := by
  rw [rollOutcomeProbability_toQ counts k hk]
  have h1 : (0 : ℚ) < (multinomialCoefficient counts : ℚ) := by
    exact_mod_cast multinomialCoefficient_pos counts
  positivity

/-- The `is_zero` filter never fires on a genuine roll-outcome probability:
the smallest probability is `1/7776`, far above `f64::EPSILON`. -/
theorem rollOutcomeProbability_not_isZero (counts : List ℕ) (k : ℕ) (hk : counts.sum = k)
    (hk5 : k ≤ 5) : ¬ probIsZero (rollOutcomeProbability counts k) := by
  intro hz
  unfold probIsZero at hz
  rw [PRat.lt_iff_toQ] at hz
  have heps : (f64Epsilon).toQ = 1 / (2 : ℚ) ^ 52 := by
    unfold f64Epsilon PRat.toQ
    push_cast
    ring
  have hge := rollOutcomeProbability_ge counts k hk
  rw [heps] at hz
  have h6 : (6 : ℚ) ^ k ≤ 6 ^ 5 := by
    apply pow_le_pow_right₀ (by norm_num) hk5
  have hlow : 1 / (6 : ℚ) ^ 5 ≤ 1 / (6 : ℚ) ^ k := by
    apply div_le_div_of_nonneg_left (by norm_num) (by positivity) h6
  have : 1 / (6 : ℚ) ^ 5 < 1 / (2 : ℚ) ^ 52 := by linarith
  norm_num at this

-- =============================================================================
-- Keep-pattern enumeration of the table builder
-- =============================================================================

theorem forEachKeepAux_mem (maxPF : ℕ) : ∀ (n r : ℕ), r ≤ maxPF → ∀ L,
    (L ∈ forEachKeepAux maxPF n r ↔ L.length = n + 1 ∧ L.sum = r) := by
  intro n
  induction n with
  | zero =>
    intro r hr L
    simp only [forEachKeepAux, if_pos hr, List.mem_singleton]
    constructor
    · rintro rfl; simp
    · rintro ⟨hlen, hsum⟩
      match L, hlen with
      | [a], _ =>
        simp only [List.sum_cons, List.sum_nil, add_zero] at hsum
        rw [hsum]
  | succ n ih =>
    intro r hr L
    have hmin : min r maxPF = r := Nat.min_eq_left hr
    simp only [forEachKeepAux, hmin, List.mem_flatMap, List.mem_range, List.mem_map]
    constructor
    · rintro ⟨c, hc, L', hL', rfl⟩
      have hc' : c ≤ r := by omega
      obtain ⟨hlen, hsum⟩ := (ih (r - c) (by omega) L').mp hL'
      constructor
      · simp [hlen]
      · simp only [List.sum_cons, hsum]
        omega
    · rintro ⟨hlen, hsum⟩
      match L, hlen with
      | c :: L', hlen =>
        simp only [List.sum_cons] at hsum
        have hc : c ≤ r := by omega
        refine ⟨c, by omega, L', ?_, rfl⟩
        exact (ih (r - c) (by omega) L').mpr ⟨by simpa using hlen, by omega⟩

theorem forEachKeepAux_nodup (maxPF : ℕ) : ∀ (n r : ℕ),
    (forEachKeepAux maxPF n r).Nodup := by
  intro n
  induction n with
  | zero =>
    intro r
    unfold forEachKeepAux
    split_ifs <;> simp
  | succ n ih =>
    intro r
    unfold forEachKeepAux
    rw [List.nodup_flatMap]
    constructor
    · intro c _
      exact List.Nodup.map (fun _ _ h => by injection h) (ih (r - c))
    · apply List.Pairwise.imp ?_ (List.nodup_range _)
      intro c c' hcc x hx hx'
      simp only [List.mem_map] at hx hx'
      obtain ⟨_, _, rfl⟩ := hx
      obtain ⟨_, _, he⟩ := hx'
      injection he with h1 _
      exact hcc (h1 ▸ rfl)

/-- The keys of `TransitionTable::build` are exactly the kept-count vectors of
length 6 paired with the dice count completing them to 5. -/
theorem mem_transitionKeys_iff (kept : List ℕ) (toRoll : ℕ) :
    (kept, toRoll) ∈ transitionKeys ↔ kept.length = 6 ∧ kept.sum + toRoll = 5 := by
  unfold transitionKeys keepPatternsWithTotal
  simp only [List.mem_flatMap, List.mem_range, List.mem_map, Prod.mk.injEq]
  constructor
  · rintro ⟨t, ht, k', hk', rfl, rfl⟩
    obtain ⟨hlen, hsum⟩ := (forEachKeepAux_mem 5 5 (5 - t) (by omega) k').mp hk'
    exact ⟨hlen, by omega⟩
  · rintro ⟨hlen, hsum⟩
    refine ⟨toRoll, by omega, kept, ?_, rfl, rfl⟩
    exact (forEachKeepAux_mem 5 5 (5 - toRoll) (by omega) kept).mpr ⟨hlen, by omega⟩

-- =============================================================================
-- The table's lookup agrees with the direct model of `get`
-- =============================================================================

theorem lookupTT_build : ∀ (l : List (List ℕ × ℕ)) (key : List ℕ × ℕ),
    lookupTT (l.filterMap fun k =>
        if entriesFor k.1 k.2 = [] then none
        else some (k, entriesFor k.1 k.2)) key =
      if key ∈ l ∧ entriesFor key.1 key.2 ≠ [] then some (entriesFor key.1 key.2)
      else none := by
  intro l key
  induction l with
  | nil => simp [lookupTT]
  | cons k0 t ih =>
    rw [List.filterMap_cons]
    by_cases he : entriesFor k0.1 k0.2 = []
    · simp only [if_pos he]
      rw [ih]
      by_cases hk : key = k0
      · subst hk
        simp [he]
      · simp only [List.mem_cons]
        by_cases hm : key ∈ t <;> simp [hm, hk]
    · simp only [if_neg he]
      show lookupTT ((k0, entriesFor k0.1 k0.2) :: _) key = _
      unfold lookupTT
      by_cases hk : k0 = key
      · subst hk
        simp [he]
      · rw [if_neg hk, ih]
        simp only [List.mem_cons]
        have hkk : ¬ key = k0 := fun h => hk h.symm
        by_cases hm : key ∈ t <;> simp [hm, hkk]

/-- The direct model of `TransitionTable::get` agrees with association-list
lookup in the built table. -/
theorem transitionGet_eq_lookup (kept : List ℕ) (toRoll : ℕ) :
    transitionGet kept toRoll = (lookupTT transitionTable (kept, toRoll)).getD [] := by
  unfold transitionTable transitionGet
  rw [lookupTT_build transitionKeys (kept, toRoll)]
  by_cases hkey : kept.length = 6 ∧ kept.sum + toRoll = 5
  · rw [if_pos hkey]
    have hmem : (kept, toRoll) ∈ transitionKeys := (mem_transitionKeys_iff _ _).mpr hkey
    by_cases he : entriesFor kept toRoll = []
    · rw [if_neg (by simp [he]), Option.getD_none, he]
    · rw [if_pos ⟨hmem, he⟩, Option.getD_some]
  · rw [if_neg hkey, if_neg, Option.getD_none]
    rintro ⟨hmem, _⟩
    exact hkey ((mem_transitionKeys_iff _ _).mp hmem)

-- =============================================================================
-- Sum helpers for list computations
-- =============================================================================

theorem sum_map_filterMap {α β M : Type} [AddCommMonoid M] (l : List α)
    (f : α → Option β) (g : β → M) :
    ((l.filterMap f).map g).sum =
      (l.map fun a => ((f a).map g).getD 0).sum := by
  induction l with
  | nil => simp
  | cons x t ih =>
    rw [List.filterMap_cons]
    cases hfx : f x with
    | none => simp [hfx, ih]
    | some b => simp [hfx, ih]

theorem sum_map_flatMap {α β M : Type} [AddCommMonoid M] (l : List α)
    (f : α → List β) (g : β → M) :
    ((l.flatMap f).map g).sum = (l.map fun a => ((f a).map g).sum).sum := by
  induction l with
  | nil => simp
  | cons x t ih => simp [List.flatMap_cons, ih]

theorem list_range_sum {M : Type} [AddCommMonoid M] (n : ℕ) (f : ℕ → M) :
    ((List.range n).map f).sum = ∑ i ∈ Finset.range n, f i := by
  induction n with
  | zero => simp
  | succ n ih => rw [List.range_succ, Finset.sum_range_succ, List.map_append,
      List.sum_append, ih]; simp

-- =============================================================================
-- The multinomial sum theorem over the keep-pattern enumeration
-- =============================================================================

/-- Summing `r! / ∏ v_i!` over all vectors of a fixed length with entries
summing to `r` gives the count of functions, `(faces)^r`. -/
theorem sum_multinomial_q (maxPF : ℕ) : ∀ (n r : ℕ), r ≤ maxPF →
    ((forEachKeepAux maxPF n r).map fun v =>
      (Nat.factorial r : ℚ) / ((v.map Nat.factorial).prod : ℚ)).sum =
      ((n : ℚ) + 1) ^ r := by
  intro n
  induction n with
  | zero =>
    intro r hr
    simp only [forEachKeepAux, if_pos hr, List.map_cons, List.map_nil,
      List.sum_cons, List.sum_nil, add_zero, List.prod_cons, List.prod_nil,
      mul_one, Nat.cast_zero, zero_add, one_pow]
    exact div_self (by exact_mod_cast Nat.factorial_ne_zero r)
  | succ n ih =>
    intro r hr
    have hmin : min r maxPF = r := Nat.min_eq_left hr
    unfold forEachKeepAux
    rw [hmin, sum_map_flatMap, list_range_sum]
    have hstep : ∀ c ∈ Finset.range (r + 1),
        (((forEachKeepAux maxPF n (r - c)).map (c :: ·)).map fun v =>
          (Nat.factorial r : ℚ) / ((v.map Nat.factorial).prod : ℚ)).sum =
        (Nat.choose r c : ℚ) * ((n : ℚ) + 1) ^ (r - c) := by
      intro c hc
      rw [Finset.mem_range] at hc
      have hcr : c ≤ r := by omega
      rw [List.map_map]
      have hterm : ∀ v' : List ℕ,
          ((fun v => (Nat.factorial r : ℚ) / ((v.map Nat.factorial).prod : ℚ)) ∘
            (c :: ·)) v' =
          (Nat.choose r c : ℚ) *
            ((Nat.factorial (r - c) : ℚ) / ((v'.map Nat.factorial).prod : ℚ)) := by
        intro v'
        simp only [Function.comp_apply, List.map_cons, List.prod_cons]
        have hfact : (Nat.factorial r : ℚ) =
            (Nat.choose r c : ℚ) * (Nat.factorial c : ℚ) *
              (Nat.factorial (r - c) : ℚ) := by
          exact_mod_cast (Nat.choose_mul_factorial_mul_factorial hcr).symm
        have hc0 : (Nat.factorial c : ℚ) ≠ 0 := by
          exact_mod_cast Nat.factorial_ne_zero c
        rw [hfact]
        push_cast
        rw [show ((Nat.choose r c : ℚ) * (Nat.factorial c : ℚ) *
            (Nat.factorial (r - c) : ℚ)) = (Nat.factorial c : ℚ) *
              ((Nat.choose r c : ℚ) * (Nat.factorial (r - c) : ℚ)) from by ring]
        rw [mul_div_mul_left _ _ hc0, mul_div_assoc]
      rw [List.map_congr_left fun v' _ => hterm v']
      rw [show (fun v' : List ℕ => (Nat.choose r c : ℚ) *
            ((Nat.factorial (r - c) : ℚ) / ((v'.map Nat.factorial).prod : ℚ))) =
          (fun v' : List ℕ => (Nat.choose r c : ℚ) *
            ((fun w : List ℕ => (Nat.factorial (r - c) : ℚ) /
              ((w.map Nat.factorial).prod : ℚ)) v')) from rfl]
      rw [List.sum_map_mul_left, ih (r - c) (by omega)]
    rw [Finset.sum_congr rfl hstep]
    have hbinom := add_pow (1 : ℚ) ((n : ℚ) + 1) r
    simp only [one_pow, one_mul] at hbinom
    have : ∑ c ∈ Finset.range (r + 1), (Nat.choose r c : ℚ) * ((n : ℚ) + 1) ^ (r - c) =
        ∑ c ∈ Finset.range (r + 1), ((n : ℚ) + 1) ^ (r - c) * (Nat.choose r c : ℚ) := by
      exact Finset.sum_congr rfl fun c _ => by ring
    rw [this, ← hbinom]
    push_cast
    ring

/-- Summing the roll-outcome probabilities over all outcomes of rolling `k`
dice gives exactly 1. -/
theorem sum_rollOutcome_one (k : ℕ) (hk : k ≤ 5) :
    ((keepPatternsWithTotal k).map fun v => (rollOutcomeProbability v k).toQ).sum
      = 1 := by
  unfold keepPatternsWithTotal
  have hterm : ∀ v ∈ forEachKeepAux 5 5 k,
      (rollOutcomeProbability v k).toQ =
        ((Nat.factorial k : ℚ) / ((v.map Nat.factorial).prod : ℚ)) / (6 : ℚ) ^ k := by
    intro v hv
    obtain ⟨_, hsum⟩ := (forEachKeepAux_mem 5 5 k hk v).mp hv
    rw [rollOutcomeProbability_toQ v k hsum, multinomialCoefficient_cast, hsum]
  rw [List.map_congr_left hterm]
  rw [show (fun v : List ℕ => ((Nat.factorial k : ℚ) /
      ((v.map Nat.factorial).prod : ℚ)) / (6 : ℚ) ^ k) =
    (fun v : List ℕ => ((fun w : List ℕ => (Nat.factorial k : ℚ) /
      ((w.map Nat.factorial).prod : ℚ)) v) * (1 / (6 : ℚ) ^ k)) from by
    funext v; rw [mul_one_div]]
  rw [List.sum_map_mul_right, sum_multinomial_q 5 5 k hk]
  norm_num

-- =============================================================================
-- Characterisation of `compute_transition_prob`
-- =============================================================================

/-- On six-count vectors, `compute_transition_prob` succeeds exactly when the
target dominates the kept dice and the difference accounts for the rolled
dice, and then returns the roll-outcome probability of the difference. -/
theorem ctp_eq_some_iff (kept t : List ℕ) (toRoll : ℕ) (p : PRat)
    (hk : kept.length = 6) (ht : t.length = 6) :
    computeTransitionProb kept t toRoll = some p ↔
      (List.Forall₂ (· ≤ ·) kept t ∧
        (List.zipWith (fun a b => a - b) t kept).sum = toRoll ∧
        p = rollOutcomeProbability (List.zipWith (fun a b => a - b) t kept) toRoll) := by
  obtain ⟨k0, k1, k2, k3, k4, k5, rfl⟩ := exists_six_of_length kept hk
  obtain ⟨t0, t1, t2, t3, t4, t5, rfl⟩ := exists_six_of_length t ht
  have hz : List.zipWith (fun a b => a - b) [t0, t1, t2, t3, t4, t5]
      [k0, k1, k2, k3, k4, k5] =
      [t0 - k0, t1 - k1, t2 - k2, t3 - k3, t4 - k4, t5 - k5] := rfl
  rw [hz]
  have hf : List.Forall₂ (· ≤ ·) [k0, k1, k2, k3, k4, k5] [t0, t1, t2, t3, t4, t5] ↔
      (k0 ≤ t0 ∧ k1 ≤ t1 ∧ k2 ≤ t2 ∧ k3 ≤ t3 ∧ k4 ≤ t4 ∧ k5 ≤ t5) := by
    constructor
    · intro h
      rcases h with _ | ⟨h0, h⟩
      rcases h with _ | ⟨h1, h⟩
      rcases h with _ | ⟨h2, h⟩
      rcases h with _ | ⟨h3, h⟩
      rcases h with _ | ⟨h4, h⟩
      rcases h with _ | ⟨h5, _⟩
      exact ⟨h0, h1, h2, h3, h4, h5⟩
    · rintro ⟨h0, h1, h2, h3, h4, h5⟩
      exact .cons h0 (.cons h1 (.cons h2 (.cons h3 (.cons h4 (.cons h5 .nil)))))
  show (if k0 ≤ t0 ∧ k1 ≤ t1 ∧ k2 ≤ t2 ∧ k3 ≤ t3 ∧ k4 ≤ t4 ∧ k5 ≤ t5 then
      if ([t0 - k0, t1 - k1, t2 - k2, t3 - k3, t4 - k4, t5 - k5] : List ℕ).sum = toRoll
      then some (rollOutcomeProbability
        [t0 - k0, t1 - k1, t2 - k2, t3 - k3, t4 - k4, t5 - k5] toRoll)
      else none
    else none) = some p ↔ _
  split_ifs with h1 h2
  · simp only [Option.some.injEq]
    constructor
    · intro hp
      exact ⟨hf.mpr h1, h2, hp.symm⟩
    · rintro ⟨_, _, rfl⟩
      rfl
  · constructor
    · intro h
      cases h
    · rintro ⟨_, hsum, _⟩
      exact absurd hsum h2
  · constructor
    · intro h
      cases h
    · rintro ⟨hle, _, _⟩
      exact absurd (hf.mp hle) h1

theorem forall₂_le_six {a0 a1 a2 a3 a4 a5 b0 b1 b2 b3 b4 b5 : ℕ} :
    List.Forall₂ (· ≤ ·) [a0, a1, a2, a3, a4, a5] [b0, b1, b2, b3, b4, b5] ↔
      (a0 ≤ b0 ∧ a1 ≤ b1 ∧ a2 ≤ b2 ∧ a3 ≤ b3 ∧ a4 ≤ b4 ∧ a5 ≤ b5) := by
  constructor
  · intro h
    rcases h with _ | ⟨h0, h⟩
    rcases h with _ | ⟨h1, h⟩
    rcases h with _ | ⟨h2, h⟩
    rcases h with _ | ⟨h3, h⟩
    rcases h with _ | ⟨h4, h⟩
    rcases h with _ | ⟨h5, _⟩
    exact ⟨h0, h1, h2, h3, h4, h5⟩
  · rintro ⟨h0, h1, h2, h3, h4, h5⟩
    exact .cons h0 (.cons h1 (.cons h2 (.cons h3 (.cons h4 (.cons h5 .nil)))))

-- =============================================================================
-- The probabilities of every table key sum to exactly 1
-- =============================================================================

/-- For a kept-count vector of length 6 and the dice count completing its sum
to 5, the probabilities over the 252 scanned targets sum to exactly 1: the
feasible targets are in bijection with the outcomes of rolling `toRoll` dice,
whose multinomial weights sum to `6^toRoll` out of `6^toRoll`. -/
theorem entriesFor_sum_one (kept : List ℕ) (toRoll : ℕ)
    (hlen : kept.length = 6) (hsum : kept.sum + toRoll = 5) :
    ((entriesFor kept toRoll).map fun e => (e.2).toQ).sum = 1 := by
  have htr5 : toRoll ≤ 5 := by omega
  set W : List ℕ → ℚ := fun t =>
    match computeTransitionProb kept t toRoll with
    | some p => if probIsZero p then 0 else p.toQ
    | none => 0 with hWdef
  have h1 : ((entriesFor kept toRoll).map fun e => (e.2).toQ).sum =
      (allConfigs.map W).sum := by
    unfold entriesFor
    rw [sum_map_filterMap]
    have hpt : ∀ it : ℕ × List ℕ,
        (((match computeTransitionProb kept it.2 toRoll with
          | some prob => if probIsZero prob then none else some (it.1, prob)
          | none => none).map fun e : ℕ × PRat => (e.2).toQ).getD 0) = W it.2 := by
      intro it
      rcases hc : computeTransitionProb kept it.2 toRoll with _ | p
      · simp [hWdef, hc]
      · by_cases hz : probIsZero p
        · simp [hWdef, hc, hz]
        · simp [hWdef, hc, hz]
    have hmid : (allConfigs.enum.map (fun it : ℕ × List ℕ => W it.2)).sum =
        (allConfigs.map W).sum := by
      rw [show (fun it : ℕ × List ℕ => W it.2) = (W ∘ Prod.snd) from rfl]
      rw [← List.map_map, List.enum_map_snd]
    exact Eq.trans (congrArg List.sum (List.map_congr_left fun it _ => hpt it)) hmid
  -- weight facts
  have hW_eq : ∀ t : List ℕ, t.length = 6 →
      List.Forall₂ (· ≤ ·) kept t →
      (List.zipWith (fun a b => a - b) t kept).sum = toRoll →
      W t = (rollOutcomeProbability
        (List.zipWith (fun a b => a - b) t kept) toRoll).toQ := by
    intro t ht hle hs
    have hc : computeTransitionProb kept t toRoll =
        some (rollOutcomeProbability (List.zipWith (fun a b => a - b) t kept) toRoll) :=
      (ctp_eq_some_iff kept t toRoll _ hlen ht).mpr ⟨hle, hs, rfl⟩
    have hnz : ¬ probIsZero (rollOutcomeProbability
        (List.zipWith (fun a b => a - b) t kept) toRoll) :=
      rollOutcomeProbability_not_isZero _ toRoll hs htr5
    simp [hWdef, hc, hnz]
  have hW_zero : ∀ t : List ℕ, t.length = 6 →
      ¬ (List.Forall₂ (· ≤ ·) kept t ∧
        (List.zipWith (fun a b => a - b) t kept).sum = toRoll) →
      W t = 0 := by
    intro t ht hncond
    rcases hc : computeTransitionProb kept t toRoll with _ | p
    · simp [hWdef, hc]
    · obtain ⟨hle, hs, _⟩ := (ctp_eq_some_iff kept t toRoll p hlen ht).mp hc
      exact absurd ⟨hle, hs⟩ hncond
  have hW_pos : ∀ t : List ℕ, t.length = 6 →
      List.Forall₂ (· ≤ ·) kept t →
      (List.zipWith (fun a b => a - b) t kept).sum = toRoll →
      0 < W t := by
    intro t ht hle hs
    rw [hW_eq t ht hle hs]
    exact rollOutcomeProbability_pos _ toRoll hs
  rw [h1, ← List.sum_toFinset W allConfigs_nodup]
  have hbij : ∑ t ∈ allConfigs.toFinset, W t =
      ∑ v ∈ (keepPatternsWithTotal toRoll).toFinset,
        (rollOutcomeProbability v toRoll).toQ := by
    apply Finset.sum_bij_ne_zero
      (fun t _ _ => List.zipWith (fun a b => a - b) t kept)
    · intro t ht hWt
      rw [List.mem_toFinset] at ht ⊢
      have htI : IsConfig t := allConfigs_all_isConfig t ht
      have hcond : List.Forall₂ (· ≤ ·) kept t ∧
          (List.zipWith (fun a b => a - b) t kept).sum = toRoll := by
        by_contra h
        exact hWt (hW_zero t htI.1 h)
      unfold keepPatternsWithTotal
      apply (forEachKeepAux_mem 5 5 toRoll htr5 _).mpr
      refine ⟨?_, hcond.2⟩
      rw [List.length_zipWith, htI.1, hlen]
      omega
    · intro t1 ht1 hW1 t2 ht2 hW2 heq
      rw [List.mem_toFinset] at ht1 ht2
      have h1I : IsConfig t1 := allConfigs_all_isConfig t1 ht1
      have h2I : IsConfig t2 := allConfigs_all_isConfig t2 ht2
      have hcond1 : List.Forall₂ (· ≤ ·) kept t1 ∧
          (List.zipWith (fun a b => a - b) t1 kept).sum = toRoll := by
        by_contra h
        exact hW1 (hW_zero t1 h1I.1 h)
      have hcond2 : List.Forall₂ (· ≤ ·) kept t2 ∧
          (List.zipWith (fun a b => a - b) t2 kept).sum = toRoll := by
        by_contra h
        exact hW2 (hW_zero t2 h2I.1 h)
      obtain ⟨k0, k1, k2, k3, k4, k5, rfl⟩ := exists_six_of_length kept hlen
      obtain ⟨a0, a1, a2, a3, a4, a5, rfl⟩ := exists_six_of_length t1 h1I.1
      obtain ⟨b0, b1, b2, b3, b4, b5, rfl⟩ := exists_six_of_length t2 h2I.1
      obtain ⟨hle1, -⟩ := hcond1
      obtain ⟨hle2, -⟩ := hcond2
      rw [forall₂_le_six] at hle1 hle2
      have heq' : ([a0 - k0, a1 - k1, a2 - k2, a3 - k3, a4 - k4, a5 - k5] : List ℕ) =
          [b0 - k0, b1 - k1, b2 - k2, b3 - k3, b4 - k4, b5 - k5] := heq
      simp only [List.cons.injEq, and_true] at heq'
      simp only [List.cons.injEq, and_true]
      omega
    · intro v hv hgv
      rw [List.mem_toFinset] at hv
      unfold keepPatternsWithTotal at hv
      obtain ⟨hvlen, hvsum⟩ := (forEachKeepAux_mem 5 5 toRoll htr5 v).mp hv
      obtain ⟨k0, k1, k2, k3, k4, k5, rfl⟩ := exists_six_of_length kept hlen
      obtain ⟨v0, v1, v2, v3, v4, v5, rfl⟩ := exists_six_of_length v hvlen
      simp only [List.sum_cons, List.sum_nil, add_zero] at hvsum hsum
      refine ⟨[k0 + v0, k1 + v1, k2 + v2, k3 + v3, k4 + v4, k5 + v5], ?_, ?_, ?_⟩
      · rw [List.mem_toFinset]
        apply (mem_allConfigs_iff _).mpr
        constructor
        · rfl
        · simp only [List.sum_cons, List.sum_nil, add_zero]
          omega
      · have hle : List.Forall₂ (· ≤ ·) [k0, k1, k2, k3, k4, k5]
            [k0 + v0, k1 + v1, k2 + v2, k3 + v3, k4 + v4, k5 + v5] :=
          forall₂_le_six.mpr ⟨by omega, by omega, by omega, by omega, by omega, by omega⟩
        have hsub : (List.zipWith (fun a b => a - b)
            [k0 + v0, k1 + v1, k2 + v2, k3 + v3, k4 + v4, k5 + v5]
            [k0, k1, k2, k3, k4, k5]) = [v0, v1, v2, v3, v4, v5] := by
          show ([k0 + v0 - k0, k1 + v1 - k1, k2 + v2 - k2, k3 + v3 - k3,
            k4 + v4 - k4, k5 + v5 - k5] : List ℕ) = _
          simp only [List.cons.injEq, and_true]
          omega
        have hsub_sum : (List.zipWith (fun a b => a - b)
            [k0 + v0, k1 + v1, k2 + v2, k3 + v3, k4 + v4, k5 + v5]
            [k0, k1, k2, k3, k4, k5]).sum = toRoll := by
          rw [hsub]
          simp only [List.sum_cons, List.sum_nil, add_zero]
          omega
        exact ne_of_gt (hW_pos _ rfl hle hsub_sum)
      · show (List.zipWith (fun a b => a - b)
            [k0 + v0, k1 + v1, k2 + v2, k3 + v3, k4 + v4, k5 + v5]
            [k0, k1, k2, k3, k4, k5]) = [v0, v1, v2, v3, v4, v5]
        show ([k0 + v0 - k0, k1 + v1 - k1, k2 + v2 - k2, k3 + v3 - k3,
          k4 + v4 - k4, k5 + v5 - k5] : List ℕ) = _
        simp only [List.cons.injEq, and_true]
        omega
    · intro t ht hWt
      rw [List.mem_toFinset] at ht
      have htI : IsConfig t := allConfigs_all_isConfig t ht
      have hcond : List.Forall₂ (· ≤ ·) kept t ∧
          (List.zipWith (fun a b => a - b) t kept).sum = toRoll := by
        by_contra h
        exact hWt (hW_zero t htI.1 h)
      exact hW_eq t htI.1 hcond.1 hcond.2
  rw [hbij]
  unfold keepPatternsWithTotal
  rw [List.sum_toFinset _ (forEachKeepAux_nodup 5 5 toRoll)]
  exact sum_rollOutcome_one toRoll htr5

-- =============================================================================
-- Keeping all five dice transitions to the same configuration with certainty
-- =============================================================================

theorem toIndex_eq_of_getElem (c : List ℕ) (i : ℕ) (hi : i < allConfigs.length)
    (he : allConfigs[i] = c) : toIndex c = i := by
  unfold toIndex
  rw [← he]
  exact findIdx_beq_getElem allConfigs allConfigs_nodup i hi

theorem filterMap_indicator_enumFrom {β : Type} (val : β) (c : List ℕ) :
    ∀ (l : List (List ℕ)) (n i : ℕ), (h : i < l.length) → l[i] = c →
    (∀ j, (hj : j < l.length) → l[j] = c → j = i) →
    (l.enumFrom n).filterMap
      (fun it => if it.2 = c then some (it.1, val) else none) = [(n + i, val)] := by
  intro l
  induction l with
  | nil => intro n i h; simp at h
  | cons y t ih =>
    intro n i h hgi huniq
    rw [List.enumFrom_cons, List.filterMap_cons]
    match i with
    | 0 =>
      have hyc : y = c := hgi
      simp only [hyc, if_pos rfl]
      have htail : (List.enumFrom (n + 1) t).filterMap
          (fun it => if it.2 = c then some (it.1, val) else none) = [] := by
        rw [List.filterMap_eq_nil_iff]
        intro a ha
        have hsnd : a.2 ∈ t := by
          have := List.enumFrom_map_snd (n + 1) t
          rw [← this]
          exact List.mem_map_of_mem Prod.snd ha
        obtain ⟨j, hj, hje⟩ := List.mem_iff_getElem.mp hsnd
        by_cases hac : a.2 = c
        · exfalso
          have : j + 1 = 0 := huniq (j + 1) (by simpa using hj)
            (by simpa using hje.trans hac)
          omega
        · rw [if_neg hac]
      rw [htail, Nat.add_zero]
      simp
    | j + 1 =>
      have hyc : y ≠ c := by
        intro hy
        have : 0 = j + 1 := huniq 0 (by simp) hy
        omega
      rw [if_neg hyc]
      have hjt : j < t.length := by simpa using h
      have hj_eq : t[j] = c := by simpa using hgi
      have huniq' : ∀ j', (hj' : j' < t.length) → t[j'] = c → j' = j := by
        intro j' hj' hje
        have : j' + 1 = j + 1 := huniq (j' + 1) (by simpa using hj')
          (by simpa using hje)
        omega
      rw [ih (n + 1) j hjt hj_eq huniq']
      have : n + 1 + j = n + (j + 1) := by omega
      rw [this]

/-- Keeping all five dice (`to_roll = 0`) has exactly one target — the same
configuration — with probability exactly 1. -/
theorem entriesFor_keepAll (c : List ℕ) (hc : c ∈ allConfigs) :
    entriesFor c 0 = [(toIndex c, PRat.ofNat 1)] := by
  have hcI : IsConfig c := allConfigs_all_isConfig c hc
  have hone : ¬ probIsZero (PRat.ofNat 1) := by decide
  -- the scanned function is the indicator of the configuration itself
  have hpt : ∀ it : ℕ × List ℕ, it ∈ allConfigs.enum →
      (match computeTransitionProb c it.2 0 with
        | some prob => if probIsZero prob then none else some (it.1, prob)
        | none => none) =
      (if it.2 = c then some (it.1, PRat.ofNat 1) else none) := by
    intro it hit
    have hmem : it.2 ∈ allConfigs := by
      have := List.enum_map_snd allConfigs
      rw [← this]
      exact List.mem_map_of_mem Prod.snd hit
    have htI : IsConfig it.2 := allConfigs_all_isConfig _ hmem
    by_cases heq : it.2 = c
    · have hzip : List.zipWith (fun a b => a - b) it.2 c = [0, 0, 0, 0, 0, 0] := by
        rw [heq]
        obtain ⟨a0, a1, a2, a3, a4, a5, rfl⟩ := exists_six_of_length c hcI.1
        show ([a0 - a0, a1 - a1, a2 - a2, a3 - a3, a4 - a4, a5 - a5] : List ℕ) = _
        simp only [List.cons.injEq, and_true]
        omega
      have hsome : computeTransitionProb c it.2 0 = some (PRat.ofNat 1) := by
        apply (ctp_eq_some_iff c it.2 0 _ hcI.1 htI.1).mpr
        refine ⟨?_, ?_, ?_⟩
        · rw [heq]
          exact List.forall₂_same.mpr fun x _ => le_refl x
        · rw [hzip]
          rfl
        · rw [hzip]
          decide
      rw [heq] at hsome
      simp [hsome, hone, heq]
    · rcases hctp : computeTransitionProb c it.2 0 with _ | p
      · simp [hctp, heq]
      · exfalso
        obtain ⟨hle, hs, _⟩ := (ctp_eq_some_iff c it.2 0 p hcI.1 htI.1).mp hctp
        apply heq
        obtain ⟨a0, a1, a2, a3, a4, a5, he1⟩ := exists_six_of_length c hcI.1
        obtain ⟨b0, b1, b2, b3, b4, b5, he2⟩ := exists_six_of_length it.2 htI.1
        rw [he1, he2] at hle hs
        rw [he1, he2]
        rw [forall₂_le_six] at hle
        have hzz : (List.zipWith (fun a b => a - b)
            [b0, b1, b2, b3, b4, b5] [a0, a1, a2, a3, a4, a5]) =
            [b0 - a0, b1 - a1, b2 - a2, b3 - a3, b4 - a4, b5 - a5] := rfl
        rw [hzz] at hs
        simp only [List.sum_cons, List.sum_nil, add_zero] at hs
        simp only [List.cons.injEq, and_true]
        omega
  unfold entriesFor
  rw [List.filterMap_congr hpt]
  obtain ⟨i, hi, hgi⟩ := List.mem_iff_getElem.mp hc
  have huniq : ∀ j, (hj : j < allConfigs.length) → allConfigs[j] = c → j = i := by
    intro j hj hje
    exact (allConfigs_nodup.getElem_inj_iff).mp (hje.trans hgi.symm)
  have := filterMap_indicator_enumFrom (PRat.ofNat 1) c allConfigs 0 i hi hgi huniq
  rw [show allConfigs.enum = allConfigs.enumFrom 0 from rfl, this,
    Nat.zero_add, toIndex_eq_of_getElem c i hi hgi]

-- =============================================================================
-- Turn state, actions and analysis records (core/turn.rs)
-- =============================================================================

/-- `Action` (named `TurnAction` here to avoid clashing with category
theory): score a category now, or reroll with a keep pattern. -/
inductive TurnAction where
  | score (category : Category)
  | reroll (keep : List ℕ)
deriving DecidableEq

/-- `Action::is_score`. -/
def TurnAction.isScore : TurnAction → Bool
  | TurnAction.score _ => true
  | TurnAction.reroll _ => false

/-- `Action::is_reroll`. -/
def TurnAction.isReroll : TurnAction → Bool
  | TurnAction.score _ => false
  | TurnAction.reroll _ => true

/-- `CategoryValue`: per-category analysis entry. -/
structure CategoryValue where
  category : Category
  immediateScore : ℕ
  isValid : Bool
  expectedValue : PRat
deriving DecidableEq

/-- `TurnAnalysis`: the solver's aggregate output (the `state` pair is
flattened into its configuration and rolls-remaining fields). -/
structure TurnAnalysis where
  stateConfig : List ℕ
  stateRolls : ℕ
  available : ℕ
  categoryValues : List CategoryValue
  bestImmediate : Option (Category × ℕ)
  continueValue : PRat
  optimalKeep : List ℕ
  recommendation : TurnAction
  expectedValue : PRat
deriving DecidableEq

-- =============================================================================
-- The solver (core/solver.rs)
-- =============================================================================

/-- The memoization cache: `CacheKey = (config index, rolls remaining,
category-set bits)` mapping to expected values. -/
def Cache : Type := List ((ℕ × ℕ × ℕ) × PRat)

/-- `HashMap::get` on the cache. -/
def cacheLookup : Cache → (ℕ × ℕ × ℕ) → Option PRat
  | [], _ => none
  | (k, v) :: t, key => if k = key then some v else cacheLookup t key

/-- The repeated expression
`available.iter().map(|cat| score(config, cat).score).max().unwrap_or(0)`
of `expected_value` (both the rolls-zero return and `immediate_best`). -/
def immediateBestNat (config : List ℕ) (avail : ℕ) : ℕ :=
  (((catSetIterList avail).map fun cat => (score config cat).score).max?).getD 0

/-- One step of the `best_keep` fold: `if ev > best_ev { update }`.  The
accumulator starts as `None`, modelling the `f64::NEG_INFINITY` seed that
every finite value beats. -/
def bkStep (f : List ℕ → PRat) (acc : Option (PRat × List ℕ)) (k : List ℕ) :
    Option (PRat × List ℕ) :=
  match acc with
  | none => some (f k, k)
  | some (bev, bk) => if bev.lt (f k) then some (f k, k) else some (bev, bk)

/-- The keep-pattern maximisation loop shared by `best_keep` and
`best_keep_for_category`: scan `KeepPattern::iter_valid_for(config)` for the
pattern maximising `f`.  Since the pattern list is never empty
(`iterValidFor_ne_nil`), the fallback arm modelling an un-updated
`(NEG_INFINITY, KEEP_NONE)` result is unreachable. -/
def bestKeepAux (f : List ℕ → PRat) (config : List ℕ) : PRat × List ℕ :=
  match (iterValidFor config).foldl (bkStep f) none with
  | some p => p
  | none => (PRat.ofNat 0, List.replicate 6 0)

/-- `TurnSolver::expected_value`: empty category set gives 0; with no rolls
left, the best immediate score; otherwise the cache is consulted, then the
best immediate score is compared against the best reroll continuation
(computed through the transition table, recursing at one fewer roll).
The rolls-remaining argument comes first so the recursion is structural. -/
def expectedValue (cache : Cache) : ℕ → List ℕ → ℕ → PRat
  | 0, config, avail =>
    if avail = 0 then PRat.ofNat 0
    else PRat.ofNat (immediateBestNat config avail)
  | r + 1, config, avail =>
    if avail = 0 then PRat.ofNat 0
    else
      match cacheLookup cache (toIndex config, r + 1, avail) with
      | some ev => ev
      | none =>
        (PRat.ofNat (immediateBestNat config avail)).fmax
          (bestKeepAux
            (fun keep => transitionExpectedValue keep
              (fun next => expectedValue cache r next avail)) config).1

/-- `TurnSolver::best_keep`: at zero rolls fall back to the immediate
expected value with the keep-all pattern, else run the maximisation loop
with the one-fewer-rolls continuation. -/
def bestKeep (cache : Cache) (config : List ℕ) (rolls : ℕ) (avail : ℕ) :
    PRat × List ℕ :=
  match rolls with
  | 0 => (expectedValue cache 0 config avail, keepAll config)
  | r + 1 =>
    bestKeepAux
      (fun keep => transitionExpectedValue keep
        (fun next => expectedValue cache r next avail)) config

/-- `TurnSolver::best_keep_for_category`: maximise the expected score of a
single category over keep patterns; at `rolls == 1` the continuation is the
immediate category score of the next configuration. -/
def bestKeepForCategory : List ℕ → Category → ℕ → PRat × List ℕ
  | config, category, 0 => (PRat.ofNat (score config category).score, keepAll config)
  | config, category, r + 1 =>
    bestKeepAux
      (fun keep => transitionExpectedValue keep
        (fun next =>
          if r + 1 = 1 then PRat.ofNat (score next category).score
          else (bestKeepForCategory next category r).1)) config

/-- `TurnSolver::category_ev`. -/
def categoryEV (config : List ℕ) (rolls : ℕ) (category : Category) : PRat :=
  if rolls = 0 then PRat.ofNat (score config category).score
  else (bestKeepForCategory config category rolls).1

/-- `Iterator::max_by_key` on the immediate scores: Rust returns the **last**
maximal element, so the fold replaces the best on ties. -/
def maxByKeyLast (l : List CategoryValue) : Option CategoryValue :=
  l.foldl
    (fun acc cv =>
      match acc with
      | none => some cv
      | some b => if b.immediateScore ≤ cv.immediateScore then some cv else some b)
    none

/-- `analyze`'s `category_values` binding: per available category its
immediate score, validity, and expected value. -/
def analyzeCategoryValues (config : List ℕ) (rolls : ℕ) (avail : ℕ) :
    List CategoryValue :=
  (catSetIterList avail).map fun cat =>
    { category := cat, immediateScore := (score config cat).score,
      isValid := (score config cat).valid,
      expectedValue :=
        if 0 < rolls then categoryEV config rolls cat
        else PRat.ofNat (score config cat).score }

/-- `analyze`'s `best_immediate` binding: the last maximiser of the
immediate scores, with its score. -/
def analyzeBestImmediate (config : List ℕ) (rolls : ℕ) (avail : ℕ) :
    Option (Category × ℕ) :=
  (maxByKeyLast (analyzeCategoryValues config rolls avail)).map fun cv =>
    (cv.category, cv.immediateScore)

/-- `analyze`'s `(continue_value, optimal_keep)` binding: the best keep when
a reroll is possible, else the best immediate score with the keep-all
pattern. -/
def analyzeContinuation (cache : Cache) (config : List ℕ) (rolls : ℕ)
    (avail : ℕ) : PRat × List ℕ :=
  if 0 < rolls then bestKeep cache config rolls avail
  else (((analyzeBestImmediate config rolls avail).map
      fun q => PRat.ofNat q.2).getD (PRat.ofNat 0), keepAll config)

/-- `analyze`'s `best_immediate_value` binding. -/
def analyzeBestImmediateValue (config : List ℕ) (rolls : ℕ) (avail : ℕ) :
    PRat :=
  ((analyzeBestImmediate config rolls avail).map
    fun q => PRat.ofNat q.2).getD (PRat.ofNat 0)

/-- `TurnSolver::analyze`. -/
def analyze (cache : Cache) (config : List ℕ) (rolls : ℕ) (avail : ℕ) :
    TurnAnalysis :=
  if avail = 0 then
    { stateConfig := config, stateRolls := rolls, available := avail,
      categoryValues := [], bestImmediate := none,
      continueValue := PRat.ofNat 0, optimalKeep := List.replicate 6 0,
      recommendation := TurnAction.score Category.Chance,
      expectedValue := PRat.ofNat 0 }
  else if 0 < rolls ∧ (analyzeBestImmediateValue config rolls avail).lt
      (analyzeContinuation cache config rolls avail).1 then
    { stateConfig := config, stateRolls := rolls, available := avail,
      categoryValues := analyzeCategoryValues config rolls avail,
      bestImmediate := analyzeBestImmediate config rolls avail,
      continueValue := (analyzeContinuation cache config rolls avail).1,
      optimalKeep := (analyzeContinuation cache config rolls avail).2,
      recommendation :=
        TurnAction.reroll (analyzeContinuation cache config rolls avail).2,
      expectedValue := (analyzeContinuation cache config rolls avail).1 }
  else
    { stateConfig := config, stateRolls := rolls, available := avail,
      categoryValues := analyzeCategoryValues config rolls avail,
      bestImmediate := analyzeBestImmediate config rolls avail,
      continueValue := (analyzeContinuation cache config rolls avail).1,
      optimalKeep := (analyzeContinuation cache config rolls avail).2,
      recommendation := TurnAction.score
        (((analyzeBestImmediate config rolls avail).map Prod.fst).getD
          Category.Chance),
      expectedValue := analyzeBestImmediateValue config rolls avail }

-- =============================================================================
-- The solver's mutable state (for the memoization claims)
-- =============================================================================

/-- `TurnSolver::new`: an empty cache. -/
def TurnSolverNew : Cache := []

/-- `TurnSolver::clear_cache`. -/
def clearSolverCache (_ : Cache) : Cache := []

/-- `TurnSolver::expected_value` in state-passing form: the method takes
`&self` (a shared borrow), so it can read the cache but cannot modify it;
the solver state after the call is unchanged.  (The method body contains no
cache insertion.) -/
def expectedValueCall (cache : Cache) (config : List ℕ) (rolls : ℕ)
    (avail : ℕ) : PRat × Cache :=
  (expectedValue cache rolls config avail, cache)

-- =============================================================================
-- Facts about the keep-maximisation fold
-- =============================================================================

theorem bkFold_spec (f : List ℕ → PRat) :
    ∀ (l : List (List ℕ)) (acc : Option (PRat × List ℕ)) (v : PRat) (kk : List ℕ),
    l.foldl (bkStep f) acc = some (v, kk) →
      (∀ k ∈ l, (f k).toQ ≤ v.toQ) ∧
      (acc = some (v, kk) ∨ (kk ∈ l ∧ v = f kk)) ∧
      (∀ bv bk, acc = some (bv, bk) → bv.toQ ≤ v.toQ) := by
  intro l
  induction l with
  | nil =>
    intro acc v kk h
    simp only [List.foldl_nil] at h
    refine ⟨by simp, Or.inl h, ?_⟩
    intro bv bk hacc
    rw [hacc] at h
    injection h with h'
    injection h' with h1 h2
    rw [h1]
  | cons k t ih =>
    intro acc v kk h
    rw [List.foldl_cons] at h
    obtain ⟨hall, hmem, hacc⟩ := ih (bkStep f acc k) v kk h
    have hstep : ∃ bv' bk', bkStep f acc k = some (bv', bk') ∧
        (f k).toQ ≤ bv'.toQ ∧
        (∀ bv bk, acc = some (bv, bk) → bv.toQ ≤ bv'.toQ) ∧
        (bv' = f k ∧ bk' = k ∨ acc = some (bv', bk')) := by
      match acc with
      | none => exact ⟨f k, k, rfl, le_refl _, by simp, Or.inl ⟨rfl, rfl⟩⟩
      | some (bv, bk) =>
        show ∃ bv' bk', (if bv.lt (f k) then some (f k, k) else some (bv, bk)) = _ ∧ _
        by_cases hlt : bv.lt (f k)
        · refine ⟨f k, k, by rw [if_pos hlt], le_refl _, ?_, Or.inl ⟨rfl, rfl⟩⟩
          intro bv2 bk2 he
          injection he with h'
          injection h' with h1 h2
          rw [← h1]
          exact le_of_lt ((PRat.lt_iff_toQ bv (f k)).mp hlt)
        · have hge : (f k).toQ ≤ bv.toQ :=
            le_of_not_lt fun hc => hlt ((PRat.lt_iff_toQ bv (f k)).mpr hc)
          refine ⟨bv, bk, by rw [if_neg hlt], hge, ?_, Or.inr rfl⟩
          intro bv2 bk2 he
          injection he with h'
          injection h' with h1 h2
          rw [← h1]
    obtain ⟨bv', bk', hsome, hfk, htrans, hcase⟩ := hstep
    refine ⟨?_, ?_, ?_⟩
    · intro k' hk'
      rcases List.mem_cons.mp hk' with rfl | hk't
      · exact le_trans hfk (hacc bv' bk' hsome)
      · exact hall k' hk't
    · rcases hmem with hacc' | ⟨hkk, hv⟩
      · have hpair : some (bv', bk') = some (v, kk) := hsome.symm.trans hacc'
        injection hpair with h'
        injection h' with h1 h2
        subst h1
        subst h2
        rcases hcase with ⟨hbv, hbk⟩ | hacc2
        · subst hbv
          subst hbk
          exact Or.inr ⟨List.mem_cons_self _ _, rfl⟩
        · exact Or.inl hacc2
      · exact Or.inr ⟨List.mem_cons_of_mem _ hkk, hv⟩
    · intro bv bk hae
      subst hae
      have h1 : bv.toQ ≤ bv'.toQ := htrans bv bk rfl
      exact le_trans h1 (hacc bv' bk' hsome)

theorem bkFold_is_some (f : List ℕ → PRat) :
    ∀ (l : List (List ℕ)) (b : PRat × List ℕ),
      ∃ p, l.foldl (bkStep f) (some b) = some p := by
  intro l
  induction l with
  | nil => intro b; exact ⟨b, rfl⟩
  | cons k t ih =>
    intro b
    rw [List.foldl_cons]
    obtain ⟨b2, hb2⟩ : ∃ b2, bkStep f (some b) k = some b2 := by
      obtain ⟨bv, bk⟩ := b
      show ∃ b2, (if bv.lt (f k) then some (f k, k) else some (bv, bk)) = some b2
      by_cases hlt : bv.lt (f k)
      · exact ⟨(f k, k), by rw [if_pos hlt]⟩
      · exact ⟨(bv, bk), by rw [if_neg hlt]⟩
    rw [hb2]
    exact ih b2

/-- The maximisation loop of `best_keep` delivers the value of some scanned
pattern, bounding all scanned patterns from above. -/
theorem bestKeepAux_spec (f : List ℕ → PRat) (config : List ℕ) :
    ∃ kk, kk ∈ iterValidFor config ∧
      (bestKeepAux f config).1 = f kk ∧
      (bestKeepAux f config).2 = kk ∧
      ∀ k ∈ iterValidFor config, (f k).toQ ≤ ((bestKeepAux f config).1).toQ := by
  rcases hl : iterValidFor config with _ | ⟨k0, t⟩
  · exact absurd hl (iterValidFor_ne_nil config)
  · have h0 : (k0 :: t).foldl (bkStep f) none = t.foldl (bkStep f) (some (f k0, k0)) := by
      rw [List.foldl_cons]
      rfl
    obtain ⟨⟨v, kk⟩, hsome⟩ := bkFold_is_some f t (f k0, k0)
    have hfold : (k0 :: t).foldl (bkStep f) none = some (v, kk) := by rw [h0, hsome]
    obtain ⟨hall, hmem, _⟩ := bkFold_spec f (k0 :: t) none v kk hfold
    have hba : bestKeepAux f config = (v, kk) := by
      unfold bestKeepAux
      rw [hl, hfold]
    rcases hmem with hnone | ⟨hkk, hv⟩
    · cases hnone
    · refine ⟨kk, hkk, by rw [hba, hv], by rw [hba], ?_⟩
      intro k hk
      rw [hba]
      exact hall k hk

-- =============================================================================
-- Natural-number maxima of score lists
-- =============================================================================

theorem foldl_max_le (B : ℕ) : ∀ (l : List ℕ) (a : ℕ), a ≤ B → (∀ x ∈ l, x ≤ B) →
    l.foldl max a ≤ B := by
  intro l
  induction l with
  | nil => intro a ha _; exact ha
  | cons x t ih =>
    intro a ha hall
    rw [List.foldl_cons]
    exact ih (max a x) (max_le ha (hall x (List.mem_cons_self _ _)))
      fun y hy => hall y (List.mem_cons_of_mem _ hy)

theorem le_foldl_max : ∀ (l : List ℕ) (a : ℕ), a ≤ l.foldl max a ∧
    ∀ x ∈ l, x ≤ l.foldl max a := by
  intro l
  induction l with
  | nil => intro a; exact ⟨le_refl a, by simp⟩
  | cons x t ih =>
    intro a
    rw [List.foldl_cons]
    obtain ⟨h1, h2⟩ := ih (max a x)
    refine ⟨le_trans (le_max_left a x) h1, ?_⟩
    intro y hy
    rcases List.mem_cons.mp hy with rfl | hyt
    · exact le_trans (le_max_right a y) h1
    · exact h2 y hyt

theorem maxD_le (l : List ℕ) (B : ℕ) (h : ∀ x ∈ l, x ≤ B) : (l.max?).getD 0 ≤ B := by
  rcases l with _ | ⟨a, t⟩
  · simp
  · show ((a :: t).max?).getD 0 ≤ B
    rw [List.max?_cons']
    exact foldl_max_le B t a (h a (List.mem_cons_self _ _))
      fun x hx => h x (List.mem_cons_of_mem _ hx)

theorem le_maxD (l : List ℕ) (x : ℕ) (hx : x ∈ l) : x ≤ (l.max?).getD 0 := by
  rcases l with _ | ⟨a, t⟩
  · simp at hx
  · show x ≤ ((a :: t).max?).getD 0
    rw [List.max?_cons']
    simp only [Option.getD_some]
    obtain ⟨h1, h2⟩ := le_foldl_max t a
    rcases List.mem_cons.mp hx with rfl | hxt
    · exact h1
    · exact h2 x hxt

theorem immediateBestNat_le_50 (config : List ℕ) (avail : ℕ) (hc : IsConfig config) :
    immediateBestNat config avail ≤ 50 := by
  unfold immediateBestNat
  apply maxD_le
  intro x hx
  rw [List.mem_map] at hx
  obtain ⟨cat, _, rfl⟩ := hx
  exact score_le_50 config hc cat

-- =============================================================================
-- The rational value of a transition expectation
-- =============================================================================

theorem foldl_add_toQ {α : Type} (g : α → PRat) : ∀ (l : List α) (init : PRat),
    (l.foldl (fun total e => total.add (g e)) init).toQ =
      init.toQ + (l.map fun e => (g e).toQ).sum := by
  intro l
  induction l with
  | nil => intro init; simp
  | cons x t ih =>
    intro init
    rw [List.foldl_cons, ih, PRat.toQ_add]
    simp only [List.map_cons, List.sum_cons]
    ring

theorem transitionExpectedValue_toQ (kept : List ℕ) (scorer : List ℕ → PRat) :
    (transitionExpectedValue kept scorer).toQ =
      ((transitionGet kept (5 - kept.sum)).map fun e =>
        (e.2).toQ * (scorer (fromIndex e.1)).toQ).sum := by
  unfold transitionExpectedValue
  rw [foldl_add_toQ]
  rw [PRat.toQ_ofNat]
  push_cast
  rw [zero_add]
  congr 1
  apply List.map_congr_left
  intro e _
  exact PRat.toQ_mul _ _

/-- Every entry's target index denotes a canonical configuration. -/
theorem entriesFor_target (kept : List ℕ) (toRoll : ℕ) (i : ℕ) (p : PRat)
    (hmem : (i, p) ∈ entriesFor kept toRoll) : fromIndex i ∈ allConfigs := by
  unfold entriesFor at hmem
  rw [List.mem_filterMap] at hmem
  obtain ⟨it, hit, hfe⟩ := hmem
  have hidx : allConfigs[it.1]? = some it.2 := List.mem_enum_iff_getElem?.mp hit
  have hlt : it.1 < allConfigs.length := by
    by_contra hge
    rw [List.getElem?_eq_none (by omega)] at hidx
    cases hidx
  have hi1 : i = it.1 := by
    rcases hc : computeTransitionProb kept it.2 toRoll with _ | prob
    · rw [hc] at hfe
      simp at hfe
    · rw [hc] at hfe
      by_cases hz : probIsZero prob
      · simp [hz] at hfe
      · simp [hz] at hfe
        exact hfe.1.symm
  rw [hi1]
  unfold fromIndex
  rw [List.getD_eq_getElem _ _ hlt]
  exact List.getElem_mem hlt


-- =============================================================================
-- Closed forms and bounds of the solver's expected value
-- =============================================================================

theorem expectedValue_succ (cache : Cache) (r : ℕ) (config : List ℕ)
    (avail : ℕ) (ha : avail ≠ 0)
    (hcl : cacheLookup cache (toIndex config, r + 1, avail) = none) :
    expectedValue cache (r + 1) config avail =
      (PRat.ofNat (immediateBestNat config avail)).fmax
        (bestKeepAux (fun keep => transitionExpectedValue keep
          (fun next => expectedValue cache r next avail)) config).1 := by
  rw [expectedValue, if_neg ha, hcl]

theorem transitionExpectedValue_le (kept : List ℕ) (scorer : List ℕ → PRat)
    (hlen : kept.length = 6) (hsum : kept.sum ≤ 5) (B : ℚ)
    (hB : ∀ next ∈ allConfigs, (scorer next).toQ ≤ B) :
    (transitionExpectedValue kept scorer).toQ ≤ B := by
  rw [transitionExpectedValue_toQ]
  have hget : transitionGet kept (5 - kept.sum) = entriesFor kept (5 - kept.sum) := by
    unfold transitionGet
    rw [if_pos ⟨hlen, by omega⟩]
  rw [hget]
  calc ((entriesFor kept (5 - kept.sum)).map fun e =>
          (e.2).toQ * (scorer (fromIndex e.1)).toQ).sum
      ≤ ((entriesFor kept (5 - kept.sum)).map fun e => (e.2).toQ * B).sum := by
        apply List.sum_le_sum
        intro e he
        obtain ⟨i, p⟩ := e
        exact mul_le_mul_of_nonneg_left
          (hB (fromIndex i) (entriesFor_target kept (5 - kept.sum) i p he))
          (PRat.toQ_nonneg p)
    _ = B := by
        rw [List.sum_map_mul_right, entriesFor_sum_one kept (5 - kept.sum)
          hlen (by omega), one_mul]

theorem transitionExpectedValue_keepAll (config : List ℕ) (hc : IsConfig config)
    (scorer : List ℕ → PRat) :
    (transitionExpectedValue config scorer).toQ = (scorer config).toQ := by
  have hmem : config ∈ allConfigs := (mem_allConfigs_iff config).mpr hc
  rw [transitionExpectedValue_toQ]
  have h0 : 5 - config.sum = 0 := by rw [hc.2]
  rw [h0]
  have hget : transitionGet config 0 = [(toIndex config, PRat.ofNat 1)] := by
    unfold transitionGet
    rw [if_pos ⟨hc.1, by rw [hc.2]⟩, entriesFor_keepAll config hmem]
  rw [hget]
  simp only [List.map_cons, List.map_nil, List.sum_cons, List.sum_nil]
  rw [PRat.toQ_ofNat, index_roundtrip_right config hmem]
  norm_num

theorem expectedValue_le_50 : ∀ (r : ℕ) (config : List ℕ) (avail : ℕ),
    IsConfig config → (expectedValue TurnSolverNew r config avail).toQ ≤ 50 := by
  intro r
  induction r with
  | zero =>
    intro config avail hc
    by_cases ha : avail = 0
    · rw [expectedValue, if_pos ha, PRat.toQ_ofNat]
      norm_num
    · rw [expectedValue, if_neg ha, PRat.toQ_ofNat]
      exact_mod_cast immediateBestNat_le_50 config avail hc
  | succ r ih =>
    intro config avail hc
    by_cases ha : avail = 0
    · rw [expectedValue, if_pos ha, PRat.toQ_ofNat]
      norm_num
    · rw [expectedValue_succ TurnSolverNew r config avail ha rfl, PRat.toQ_fmax]
      apply max_le
      · rw [PRat.toQ_ofNat]
        exact_mod_cast immediateBestNat_le_50 config avail hc
      · obtain ⟨kk, hkk, hval, _, _⟩ := bestKeepAux_spec
          (fun keep => transitionExpectedValue keep
            (fun next => expectedValue TurnSolverNew r next avail)) config
        rw [hval]
        have hmem := (iterValidFor_mem_iff config kk).mp hkk
        apply transitionExpectedValue_le
        · rw [length_eq_of_forall₂ hmem, hc.1]
        · calc kk.sum ≤ config.sum := sum_le_of_forall₂ hmem
            _ = 5 := hc.2
        · intro next hnext
          exact ih next avail (allConfigs_all_isConfig next hnext)

theorem expectedValue_mono (r : ℕ) (config : List ℕ) (avail : ℕ)
    (hc : IsConfig config) :
    (expectedValue TurnSolverNew r config avail).toQ ≤
      (expectedValue TurnSolverNew (r + 1) config avail).toQ := by
  by_cases ha : avail = 0
  · have h1 : expectedValue TurnSolverNew r config avail = PRat.ofNat 0 := by
      cases r
      · rw [expectedValue, if_pos ha]
      · rw [expectedValue, if_pos ha]
    have h2 : expectedValue TurnSolverNew (r + 1) config avail = PRat.ofNat 0 := by
      rw [expectedValue, if_pos ha]
    rw [h1, h2]
  · rw [expectedValue_succ TurnSolverNew r config avail ha rfl, PRat.toQ_fmax]
    refine le_trans ?_ (le_max_right _ _)
    obtain ⟨kk, hkk, hval, hkk2, hbound⟩ := bestKeepAux_spec
      (fun keep => transitionExpectedValue keep
        (fun next => expectedValue TurnSolverNew r next avail)) config
    have hmemIter : config ∈ iterValidFor config := by
      rw [iterValidFor_mem_iff]
      exact List.forall₂_same.mpr fun x _ => le_refl x
    have h2 : (transitionExpectedValue config
        (fun next => expectedValue TurnSolverNew r next avail)).toQ ≤
        ((bestKeepAux (fun keep => transitionExpectedValue keep
          (fun next => expectedValue TurnSolverNew r next avail)) config).1).toQ :=
      hbound config hmemIter
    rw [transitionExpectedValue_keepAll config hc] at h2
    exact h2

-- =============================================================================
-- The deterministic order of the keep-pattern enumeration
-- =============================================================================

theorem runCounter_chain (maxc : List ℕ) : ∀ (fuel : ℕ) (cur : List ℕ),
    List.Chain' (fun a b => incCounter a maxc = (b, false))
      (runCounter maxc fuel cur) := by
  intro fuel
  induction fuel with
  | zero => intro cur; simp [runCounter]
  | succ fuel ih =>
    intro cur
    by_cases hcar : (incCounter cur maxc).2 = true
    · have hr : runCounter maxc (fuel + 1) cur = [cur] := by
        rw [runCounter]
        simp [hcar]
      rw [hr]
      exact List.chain'_singleton cur
    · have hfalse : (incCounter cur maxc).2 = false := by
        revert hcar; cases (incCounter cur maxc).2 <;> simp
      have hr : runCounter maxc (fuel + 1) cur =
          cur :: runCounter maxc fuel (incCounter cur maxc).1 := by
        rw [runCounter]
        simp [hfalse]
      rw [hr, List.chain'_cons']
      refine ⟨?_, ih (incCounter cur maxc).1⟩
      intro b hb
      cases fuel with
      | zero => simp [runCounter] at hb
      | succ f =>
        rw [runCounter] at hb
        simp only [List.head?_cons, Option.mem_def, Option.some.injEq] at hb
        rw [← hb, ← hfalse]

theorem iterValidFor_head (c : List ℕ) :
    (iterValidFor c).head? = some (c.map fun _ => 0) := by
  unfold iterValidFor
  rcases hn : countValidFor c with _ | n
  · exact absurd hn (Nat.pos_iff_ne_zero.mp (countValidFor_pos c))
  · rw [runCounter]
    rfl

-- =============================================================================
-- Category-set bits and containment
-- =============================================================================

theorem catMask_two_pow (c : Category) : catMask c = 2 ^ catIndex c := by
  cases c <;> rfl

theorem containsCat_of_testBit (s : ℕ) (c : Category)
    (h : Nat.testBit s (catIndex c) = true) : containsCat s c = true := by
  have hand : s &&& catMask c ≠ 0 := by
    rw [catMask_two_pow, Nat.and_two_pow, h]
    simp
  unfold containsCat
  exact decide_eq_true hand

-- =============================================================================
-- The claims
-- =============================================================================

/-- C1: for every turn state with rolls remaining and a non-empty available
category set, `TurnSolver::analyze` recommends a reroll exactly when the best
continuation value strictly exceeds the best immediate score, recommends a
score exactly when it does not (so exact ties score), and reports as
`expected_value` the value of the recommended action (the continuation value
for a reroll, the best immediate score for a score). -/
theorem dicee_c1 (cache : Cache) (config : List ℕ) (rolls : ℕ) (avail : ℕ)
    (hr : 0 < rolls) (ha : avail ≠ 0) :
    ((analyze cache config rolls avail).recommendation.isReroll = true ↔
      (analyzeBestImmediateValue config rolls avail).toQ <
        ((analyzeContinuation cache config rolls avail).1).toQ) ∧
    ((analyze cache config rolls avail).recommendation.isScore = true ↔
      ((analyzeContinuation cache config rolls avail).1).toQ ≤
        (analyzeBestImmediateValue config rolls avail).toQ) ∧
    ((analyze cache config rolls avail).recommendation.isReroll = true →
      (analyze cache config rolls avail).expectedValue =
        (analyzeContinuation cache config rolls avail).1) ∧
    ((analyze cache config rolls avail).recommendation.isScore = true →
      (analyze cache config rolls avail).expectedValue =
        analyzeBestImmediateValue config rolls avail) := by
  unfold analyze
  rw [if_neg ha]
  by_cases hlt : (analyzeBestImmediateValue config rolls avail).lt
      (analyzeContinuation cache config rolls avail).1
  · rw [if_pos ⟨hr, hlt⟩]
    rw [PRat.lt_iff_toQ] at hlt
    refine ⟨⟨fun _ => hlt, fun _ => rfl⟩, ?_, fun _ => rfl, ?_⟩
    · constructor
      · intro h
        exact absurd h Bool.false_ne_true
      · intro h
        exact absurd hlt (not_lt.mpr h)
    · intro h
      exact absurd h Bool.false_ne_true
  · rw [if_neg fun hc => hlt hc.2]
    have hle : ((analyzeContinuation cache config rolls avail).1).toQ ≤
        (analyzeBestImmediateValue config rolls avail).toQ :=
      le_of_not_lt fun hc => hlt ((PRat.lt_iff_toQ _ _).mpr hc)
    refine ⟨?_, ⟨fun _ => hle, fun _ => rfl⟩, ?_, fun _ => rfl⟩
    · constructor
      · intro h
        exact absurd h Bool.false_ne_true
      · intro h
        exact absurd h (not_lt.mpr hle)
    · intro h
      exact absurd h Bool.false_ne_true

/-- C1 witness: the theorem applied at the concrete state (five sixes, one
roll remaining, only the Ones category available). -/
theorem dicee_c1_witness :
    0 < 1 ∧ (1 : ℕ) ≠ 0 ∧
    ((analyze TurnSolverNew [0, 0, 0, 0, 0, 5] 1 1).recommendation.isReroll =
        true →
      (analyze TurnSolverNew [0, 0, 0, 0, 0, 5] 1 1).expectedValue =
        (analyzeContinuation TurnSolverNew [0, 0, 0, 0, 0, 5] 1 1).1) :=
  ⟨by decide, by decide,
    (dicee_c1 TurnSolverNew [0, 0, 0, 0, 0, 5] 1 1 (by decide) (by decide)).2.2.1⟩

/-- C2 (corrected): on an empty available category set `analyze` returns
expected value 0 and an empty per-category list, but the returned action is
the ordinary fallback `Score(Chance)` — not a distinguished "no
recommendation" action distinct from every genuine score. -/
theorem dicee_c2 (cache : Cache) (config : List ℕ) (rolls : ℕ) :
    (analyze cache config rolls 0).expectedValue = PRat.ofNat 0 ∧
    (analyze cache config rolls 0).categoryValues = [] ∧
    (analyze cache config rolls 0).recommendation =
      TurnAction.score Category.Chance := by
  unfold analyze
  rw [if_pos rfl]
  exact ⟨rfl, rfl, rfl⟩

/-- C2 counterexample: at a concrete empty-set state the returned action is
literally `Score(Chance)` and satisfies `is_score`, so it is not distinct
from a genuine catch-all score, refuting the claimed distinguished action. -/
theorem dicee_c2_counterexample :
    (analyze TurnSolverNew [0, 0, 0, 0, 0, 5] 2 0).recommendation =
      TurnAction.score Category.Chance ∧
    ((analyze TurnSolverNew [0, 0, 0, 0, 0, 5] 2 0).recommendation).isScore =
      true :=
  ⟨rfl, rfl⟩

/-- C3: there are 252 canonical configurations, and `from_index` and
`to_index` are mutually inverse between the indices below 252 and those
configurations. -/
theorem dicee_c3 :
    allConfigs.length = 252 ∧
    (∀ i, i < 252 → toIndex (fromIndex i) = i) ∧
    (∀ c ∈ allConfigs, fromIndex (toIndex c) = c) :=
  ⟨allConfigs_length, index_roundtrip_left, index_roundtrip_right⟩

/-- C5: the solver's expected value is non-decreasing in rolls remaining:
V(D,0,C) ≤ V(D,1,C) ≤ V(D,2,C). -/
theorem dicee_c5 (config : List ℕ) (avail : ℕ) (hc : IsConfig config) :
    (expectedValue TurnSolverNew 0 config avail).toQ ≤
      (expectedValue TurnSolverNew 1 config avail).toQ ∧
    (expectedValue TurnSolverNew 1 config avail).toQ ≤
      (expectedValue TurnSolverNew 2 config avail).toQ :=
  ⟨expectedValue_mono 0 config avail hc, expectedValue_mono 1 config avail hc⟩

/-- C5 witness: the theorem applied at the configuration of five sixes with
only the Ones category available. -/
theorem dicee_c5_witness :
    IsConfig [0, 0, 0, 0, 0, 5] ∧
    ((expectedValue TurnSolverNew 0 [0, 0, 0, 0, 0, 5] 1).toQ ≤
        (expectedValue TurnSolverNew 1 [0, 0, 0, 0, 0, 5] 1).toQ ∧
      (expectedValue TurnSolverNew 1 [0, 0, 0, 0, 0, 5] 1).toQ ≤
        (expectedValue TurnSolverNew 2 [0, 0, 0, 0, 0, 5] 1).toQ) :=
  ⟨by decide, dicee_c5 [0, 0, 0, 0, 0, 5] 1 (by decide)⟩

/-- C7: `TurnSolver::expected_value` takes `&self` and its body contains no
cache insertion, so after a call on a fresh solver (rolls 1, the Ones
category available) the solver's cache is unchanged — still the empty cache —
and holds no entry under the key (config index, rolls, category bits); the
claimed memoization write never happens. -/
theorem dicee_c7 :
    (expectedValueCall TurnSolverNew [0, 0, 0, 0, 0, 5] 1 1).2 =
      TurnSolverNew ∧
    cacheLookup (expectedValueCall TurnSolverNew [0, 0, 0, 0, 0, 5] 1 1).2
      (toIndex [0, 0, 0, 0, 0, 5], 1, 1) = none :=
  ⟨rfl, rfl⟩

/-- C8: for every configuration, rolls remaining at most 2, and category
set, the solver's expected value lies in the closed interval [0, 50]. -/
theorem dicee_c8 (config : List ℕ) (r : ℕ) (avail : ℕ)
    (hc : IsConfig config) (_hr : r ≤ 2) :
    0 ≤ (expectedValue TurnSolverNew r config avail).toQ ∧
    (expectedValue TurnSolverNew r config avail).toQ ≤ 50 :=
  ⟨PRat.toQ_nonneg _, expectedValue_le_50 r config avail hc⟩

/-- C8 witness: the theorem applied at the configuration of five sixes, one
roll remaining, only the Ones category available. -/
theorem dicee_c8_witness :
    IsConfig [0, 0, 0, 0, 0, 5] ∧ (1 : ℕ) ≤ 2 ∧
    (0 ≤ (expectedValue TurnSolverNew 1 [0, 0, 0, 0, 0, 5] 1).toQ ∧
      (expectedValue TurnSolverNew 1 [0, 0, 0, 0, 0, 5] 1).toQ ≤ 50) :=
  ⟨by decide, by decide, dicee_c8 [0, 0, 0, 0, 0, 5] 1 1 (by decide) (by decide)⟩

/-- C9: for every configuration, `iter_valid_for` enumerates exactly the
keep patterns bounded facewise by the configuration's counts, without
repetition, starting from the all-zero pattern and stepping by the
mixed-radix increment (a deterministic order), and its length is
`count_valid_for`, the product of count+1 over the six faces. -/
theorem dicee_c9 (config : List ℕ) :
    (∀ p, p ∈ iterValidFor config ↔ List.Forall₂ (· ≤ ·) p config) ∧
    (iterValidFor config).Nodup ∧
    (iterValidFor config).head? = some (config.map fun _ => 0) ∧
    List.Chain' (fun a b => incCounter a config = (b, false))
      (iterValidFor config) ∧
    (iterValidFor config).length = countValidFor config ∧
    countValidFor config = (config.map (· + 1)).prod :=
  ⟨fun p => iterValidFor_mem_iff config p, iterValidFor_nodup config,
    iterValidFor_head config, runCounter_chain config (countValidFor config) _,
    iterValidFor_length config, rfl⟩

/-- C10: `from_bits` clears every bit above bit 12, all category-set
operations preserve the 13-bit invariant, and iterating a set respecting the
invariant yields only categories whose bit is set in it. -/
theorem dicee_c10 (bits s t : ℕ) (hs : s < 8192) (ht : t < 8192) :
    fromBits bits < 8192 ∧
    (∀ j, 13 ≤ j → Nat.testBit (fromBits bits) j = false) ∧
    (∀ c : Category, withCat s c < 8192) ∧
    (∀ c : Category, withoutCat s c < 8192) ∧
    unionSet s t < 8192 ∧
    interSet s t < 8192 ∧
    complementSet s < 8192 ∧
    (∀ c ∈ catSetIterList s, containsCat s c = true) := by
  have h13 : (8192 : ℕ) = 2 ^ 13 := by norm_num
  refine ⟨?_, ?_, ?_, ?_, ?_, ?_, ?_, ?_⟩
  · exact lt_of_le_of_lt Nat.and_le_right (by decide)
  · intro j hj
    show Nat.testBit (bits &&& 8191) j = false
    rw [Nat.testBit_and]
    have h8191 : Nat.testBit 8191 j = false := by
      apply Nat.testBit_lt_two_pow
      calc (8191 : ℕ) < 2 ^ 13 := by norm_num
        _ ≤ 2 ^ j := Nat.pow_le_pow_right (by norm_num) hj
    rw [h8191, Bool.and_false]
  · intro c
    rw [h13]
    exact Nat.or_lt_two_pow (h13 ▸ hs) (h13 ▸ catMask_lt c)
  · intro c
    exact lt_of_le_of_lt Nat.and_le_left hs
  · rw [h13]
    exact Nat.or_lt_two_pow (h13 ▸ hs) (h13 ▸ ht)
  · exact lt_of_le_of_lt Nat.and_le_left hs
  · exact lt_of_le_of_lt Nat.and_le_right (by decide)
  · intro c hc
    exact containsCat_of_testBit s c (iterAux_sound 16 s (by omega) c hc)

/-- C10 witness: the theorem applied at bits 70000 and the sets 1024 (only
the large straight) and 1 (only the Ones). -/
theorem dicee_c10_witness :
    (1024 : ℕ) < 8192 ∧ (1 : ℕ) < 8192 ∧ fromBits 70000 < 8192 :=
  ⟨by decide, by decide, (dicee_c10 70000 1024 1 (by decide) (by decide)).1⟩

/-- C4: every entry list stored in the built transition table has
probabilities summing to exactly 1, and every key with zero dice to roll
(a keep-all pattern) stores exactly one target — the kept configuration
itself — with probability exactly 1. -/
theorem dicee_c4 (key : List ℕ × ℕ) (entries : List (ℕ × PRat))
    (hmem : (key, entries) ∈ transitionTable) :
    ((entries.map fun e => (e.2).toQ).sum = 1) ∧
    (key.2 = 0 → entries = [(toIndex key.1, PRat.ofNat 1)]) := by
  unfold transitionTable at hmem
  rw [List.mem_filterMap] at hmem
  obtain ⟨k, hk, hfe⟩ := hmem
  by_cases hz : entriesFor k.1 k.2 = []
  · rw [if_pos hz] at hfe
    cases hfe
  · rw [if_neg hz] at hfe
    injection hfe with h'
    injection h' with h1 h2
    subst h1
    subst h2
    obtain ⟨hlen, hsum⟩ := (mem_transitionKeys_iff k.1 k.2).mp hk
    refine ⟨entriesFor_sum_one k.1 k.2 hlen hsum, ?_⟩
    intro h0
    rw [h0]
    exact entriesFor_keepAll k.1
      ((mem_allConfigs_iff k.1).mpr ⟨hlen, by omega⟩)

/-- C4 witness: the theorem applied at the first stored key, the keep-all
pattern of five sixes with zero dice to roll. -/
theorem dicee_c4_witness :
    ((([0, 0, 0, 0, 0, 5], 0), [((0 : ℕ), PRat.ofNat 1)]) ∈ transitionTable) ∧
    (([((0 : ℕ), PRat.ofNat 1)].map fun e => (e.2).toQ).sum = 1 ∧
      ((0 : ℕ) = 0 → [((0 : ℕ), PRat.ofNat 1)] =
        [(toIndex ([0, 0, 0, 0, 0, 5] : List ℕ), PRat.ofNat 1)])) := by
  have hhead : transitionTable.head? =
      some ((([0, 0, 0, 0, 0, 5], 0), [((0 : ℕ), PRat.ofNat 1)])) := rfl
  have hmem : ((([0, 0, 0, 0, 0, 5], 0), [((0 : ℕ), PRat.ofNat 1)]) :
      (List ℕ × ℕ) × List (ℕ × PRat)) ∈ transitionTable := by
    apply List.mem_of_mem_head?
    rw [hhead]
    rfl
  exact ⟨hmem, dicee_c4 ([0, 0, 0, 0, 0, 5], 0) [((0 : ℕ), PRat.ofNat 1)] hmem⟩

set_option maxHeartbeats 4000000 in
/-- The concrete continuation of the C6 scenario: dice `[1,2,3,4,6]`
(counts `[1,1,1,1,0,1]`), one roll remaining, only the large straight
available (bits 1024): the best keep rerolls the six, and the continuation
value is `311040 / 46656 = 40 / 6`. -/
theorem c6_continuation :
    analyzeContinuation TurnSolverNew [1, 1, 1, 1, 0, 1] 1 1024 =
      (⟨311040, 46656, by norm_num⟩, [1, 1, 1, 1, 0, 0]) := by
  decide

/-- C6: for dice [1,2,3,4,6] with one roll remaining and only the large
straight available, `analyze` recommends a reroll and reports expected value
40/6. -/
theorem dicee_c6 :
    (analyze TurnSolverNew [1, 1, 1, 1, 0, 1] 1 1024).recommendation.isReroll =
      true ∧
    ((analyze TurnSolverNew [1, 1, 1, 1, 0, 1] 1 1024).expectedValue).toQ =
      40 / 6 := by
  have hbiv : analyzeBestImmediateValue [1, 1, 1, 1, 0, 1] 1 1024 =
      PRat.ofNat 0 := rfl
  have hlt : (analyzeBestImmediateValue [1, 1, 1, 1, 0, 1] 1 1024).lt
      (analyzeContinuation TurnSolverNew [1, 1, 1, 1, 0, 1] 1 1024).1 := by
    rw [hbiv, c6_continuation]
    decide
  unfold analyze
  rw [if_neg (by norm_num), if_pos ⟨by norm_num, hlt⟩]
  refine ⟨rfl, ?_⟩
  show ((analyzeContinuation TurnSolverNew [1, 1, 1, 1, 0, 1] 1 1024).1).toQ =
    40 / 6
  rw [c6_continuation]
  refine PRat.toQ_eq_div _ 40 6 (by norm_num) ?_
  show (311040 : ℕ) * 6 = 40 * 46656
  norm_num
